import Mathlib

/-!
Verification of the OMEGA crawler specification against its source.

This file shallowly embeds the parts of the repository that the claims
concern:

* `src/crawler/src/utils/helpers.py` — `normalize_url`, built on CPython's
  `urllib.parse.urlparse` / `urlunparse` (modelled here from CPython 3.11,
  the interpreter the repository runs under; semantics were checked against
  that implementation).  URLs are modelled as `List Char`.  The ASCII
  lower-casing of `str.lower` is modelled exactly on ASCII.  The two
  validations whose full semantics are out of scope — `_checknetloc`
  (NFKC, a no-op for ASCII netlocs) and `_check_bracketed_host`
  (reachable only for bracketed hosts) — are over-approximated in
  `urlsplitE`: their whole trigger region (non-ASCII or bracketed
  netlocs) is mapped to an error, so no theorem asserts success where
  CPython may raise; see the doc comment on `urlsplitE`.  All concrete
  inputs used below are ASCII and bracket-free apart from the explicit
  bracket counterexample.
* `src/crawler/src/crawlers/base_crawler.py` — the `BaseCrawler.crawl`
  frontier loop and `BaseCrawler._flush_data`.
* `src/crawler/src/crawlers/planeo_crawler.py` — the listing-phase loop of
  `PlaneoCrawler.crawl`.
* `src/crawler/src/crawlers/gigacomputer_crawler.py` —
  `_parse_gigacomputer_product_page` and the detail phase of
  `GigacomputerCrawler.crawl`.
* `src/crawler/src/writer/writer.py` — `writer_thread`, plus a small-step
  interleaving model of the flush/acknowledge protocol between engines and
  the writer.
-/

/-! ## Characters and low-level string operations -/

/-- ASCII lower-casing of one character, the ASCII fragment of Python's
`str.lower`.  All characters relevant to the embedded code paths are ASCII. -/
def lowerChar : Char → Char
  | 'A' => 'a' | 'B' => 'b' | 'C' => 'c' | 'D' => 'd' | 'E' => 'e' | 'F' => 'f'
  | 'G' => 'g' | 'H' => 'h' | 'I' => 'i' | 'J' => 'j' | 'K' => 'k' | 'L' => 'l'
  | 'M' => 'm' | 'N' => 'n' | 'O' => 'o' | 'P' => 'p' | 'Q' => 'q' | 'R' => 'r'
  | 'S' => 's' | 'T' => 't' | 'U' => 'u' | 'V' => 'v' | 'W' => 'w' | 'X' => 'x'
  | 'Y' => 'y' | 'Z' => 'z'
  | c => c

/-- `str.lower` on a character list. -/
def lowerStr (l : List Char) : List Char := l.map lowerChar

/-- ASCII lower-case letter test (code points 97–122). -/
def isLowerAlpha (c : Char) : Bool := 97 ≤ c.toNat && c.toNat ≤ 122

/-- ASCII upper-case letter test (code points 65–90). -/
def isUpperAlpha (c : Char) : Bool := 65 ≤ c.toNat && c.toNat ≤ 90

/-- `url[0].isascii() and url[0].isalpha()` in `urlsplit`. -/
def isAsciiAlpha (c : Char) : Bool := isLowerAlpha c || isUpperAlpha c

/-- ASCII digit test (code points 48–57). -/
def isAsciiDigit (c : Char) : Bool := 48 ≤ c.toNat && c.toNat ≤ 57

/-- Membership in CPython's `scheme_chars`
(`abc…zABC…Z012…9+-.`). -/
def isSchemeChar (c : Char) : Bool :=
  isAsciiAlpha c || isAsciiDigit c || c == '+' || c == '-' || c == '.'

/-- `path.rstrip('/')`: remove every trailing `'/'`. -/
def rstripSlash (l : List Char) : List Char :=
  (l.reverse.dropWhile (· == '/')).reverse

/-! ## `urllib.parse` (CPython 3.11) -/

/-- A character that survives `_UNSAFE_URL_BYTES_TO_REMOVE` (everything
except tab, carriage return, line feed). -/
def keepChar (c : Char) : Bool := !(c == '\t' || c == '\r' || c == '\n')

/-- The preprocessing at the top of `urlsplit`: left-strip WHATWG C0
controls and spaces (code points ≤ 0x20), then delete every tab, carriage
return and line feed. -/
def preclean (url : List Char) : List Char :=
  (url.dropWhile fun c => c.toNat ≤ 32).filter keepChar

/-- The scheme-extraction step of `urlsplit`: if the first `':'` is
preceded by a nonempty run of scheme characters starting with an ASCII
letter, split there and lower-case the scheme; otherwise leave the URL
unchanged with an empty scheme. -/
def splitScheme (url : List Char) : List Char × List Char :=
  match url.dropWhile (· != ':') with
  | [] => ([], url)
  | _ :: rest =>
    match url.takeWhile (· != ':') with
    | [] => ([], url)
    | c :: cs =>
      if isAsciiAlpha c && (c :: cs).all isSchemeChar then
        (lowerStr (c :: cs), rest)
      else ([], url)

/-- A netloc delimiter (`'/'`, `'?'` or `'#'`), as in `_splitnetloc`. -/
def isNetlocDelim (c : Char) : Bool := c == '/' || c == '?' || c == '#'

/-- `_splitnetloc`: if the URL starts with `"//"`, the netloc extends to
the first `'/'`, `'?'` or `'#'` after it. -/
def splitNetloc : List Char → List Char × List Char
  | '/' :: '/' :: r =>
    (r.takeWhile (fun c => !isNetlocDelim c), r.dropWhile (fun c => !isNetlocDelim c))
  | r => ([], r)

/-- The five components produced by `urlsplit`. -/
structure UrlSplit where
  scheme : List Char
  netloc : List Char
  path : List Char
  query : List Char
  fragment : List Char
deriving DecidableEq, Repr

/-- An ASCII code point, as `str.isascii` checks it. -/
def isAsciiChar (c : Char) : Bool := c.toNat ≤ 127

/-- `urllib.parse.urlsplit` (CPython 3.11, default arguments): scheme,
netloc, fragment and query extraction, raising `ValueError` on a netloc
with unbalanced square brackets.

After that check CPython runs two more validations whose full semantics
(IPv6/IPvFuture address grammar, Unicode NFKC normalization) are outside
this development's scope, and this model maps their *entire* trigger
region to an error rather than claim success anywhere inside it:

* `_check_bracketed_host` on a netloc with balanced `[` `]` — CPython
  accepts a valid bracketed IPv6/IPvFuture host (`http://[::1]/`) and
  raises `ValueError` otherwise (`http://[x]`); the model returns an
  error for every bracketed netloc;
* `_checknetloc` on a non-ASCII netloc — CPython accepts an NFKC-stable
  netloc (`http://exämple.com`) and raises `ValueError` when NFKC
  normalization introduces one of `/?#@:` (`http://℀`); the model
  returns an error for every non-ASCII netloc.  On an all-ASCII netloc
  `_checknetloc` returns immediately, and the model is exact.

So every `.ok` of the model is an `.ok` of CPython with the same
components, while an input with a bracketed or non-ASCII netloc is never
the subject of a success theorem here. -/
def urlsplitE (url0 : List Char) : Except String UrlSplit :=
  let url1 := preclean url0
  let sr := splitScheme url1
  let nr := splitNetloc sr.2
  if (nr.1.contains '[') != (nr.1.contains ']') then
    .error "Invalid IPv6 URL"
  else if nr.1.contains '[' then
    .error "bracketed host: outside the modelled fragment"
  else if !nr.1.all isAsciiChar then
    .error "non-ASCII netloc: outside the modelled fragment"
  else
    let pq := nr.2.takeWhile (· != '#')
    let fragment := (nr.2.dropWhile (· != '#')).drop 1
    let path := pq.takeWhile (· != '?')
    let query := (pq.dropWhile (· != '?')).drop 1
    .ok ⟨sr.1, nr.1, path, query, fragment⟩

/-- CPython's `uses_params` table. -/
def usesParams : List (List Char) :=
  ["", "ftp", "hdl", "prospero", "http", "imap", "https", "shttp", "rtsp",
   "rtsps", "rtspu", "sip", "sips", "mms", "sftp", "tel"].map String.data

/-- CPython's `uses_netloc` table. -/
def usesNetloc : List (List Char) :=
  ["", "ftp", "http", "gopher", "nntp", "telnet", "imap", "wais", "file",
   "mms", "https", "shttp", "snews", "prospero", "rtsp", "rtsps", "rtspu",
   "rsync", "svn", "svn+ssh", "sftp", "nfs", "git", "git+ssh", "ws",
   "wss"].map String.data

/-- `_splitparams`, called by `urlparse` only when the path contains a
`';'`: the params are everything after the first `';'` of the last path
segment (or of the whole path when it has no `'/'`). -/
def splitParams (url : List Char) : List Char × List Char :=
  if url.contains '/' then
    let afterLast := (url.reverse.takeWhile (· != '/')).reverse
    let beforeLast := url.take (url.length - afterLast.length)
    if afterLast.contains ';' then
      (beforeLast ++ afterLast.takeWhile (· != ';'),
       (afterLast.dropWhile (· != ';')).drop 1)
    else (url, [])
  else
    (url.takeWhile (· != ';'), (url.dropWhile (· != ';')).drop 1)

/-- The six components produced by `urlparse`. -/
structure UrlParsed where
  scheme : List Char
  netloc : List Char
  path : List Char
  params : List Char
  query : List Char
  fragment : List Char
deriving DecidableEq, Repr

/-- `urllib.parse.urlparse` (CPython 3.11): `urlsplit` followed by params
splitting for schemes in `uses_params`. -/
def urlparseE (url : List Char) : Except String UrlParsed := do
  let r ← urlsplitE url
  if usesParams.contains r.scheme && r.path.contains ';' then
    let pp := splitParams r.path
    return ⟨r.scheme, r.netloc, pp.1, pp.2, r.query, r.fragment⟩
  else
    return ⟨r.scheme, r.netloc, r.path, [], r.query, r.fragment⟩

/-- `urllib.parse.urlunsplit` (CPython 3.11).  Note the netloc branch also
fires for an empty netloc when the scheme is in `uses_netloc` and the path
does not already begin with `"//"`. -/
def urlunsplit (scheme netloc url query fragment : List Char) : List Char :=
  let url1 :=
    if netloc ≠ [] ∨
        (scheme ≠ [] ∧ usesNetloc.contains scheme ∧ url.take 2 ≠ ['/', '/']) then
      let u2 := if url ≠ [] ∧ url.head? ≠ some '/' then '/' :: url else url
      '/' :: '/' :: (netloc ++ u2)
    else url
  let url2 := if scheme ≠ [] then scheme ++ ':' :: url1 else url1
  let url3 := if query ≠ [] then url2 ++ '?' :: query else url2
  if fragment ≠ [] then url3 ++ '#' :: fragment else url3

/-- `urllib.parse.urlunparse`. -/
def urlunparse (p : UrlParsed) : List Char :=
  let url := if p.params ≠ [] then p.path ++ ';' :: p.params else p.path
  urlunsplit p.scheme p.netloc url p.query p.fragment

/-- `normalize_url` from `src/crawler/src/utils/helpers.py`:

```python
parsed = urlparse(url)
return urlunparse((parsed.scheme.lower(), parsed.netloc.lower(),
                   parsed.path.rstrip('/'), '', '', ''))
```

It is `Except`-valued because `urlparse` can raise. -/
def normalize_url (url : List Char) : Except String (List Char) := do
  let p ← urlparseE url
  return urlunparse ⟨lowerStr p.scheme, lowerStr p.netloc, rstripSlash p.path,
                     [], [], []⟩

/-- Convenience: the characters of a string literal. -/
def chars (s : String) : List Char := s.data

/-! ## `BaseCrawler.crawl` — frontier loop

The loop in `src/crawler/src/crawlers/base_crawler.py` (lines 97–128),
parameterized over the collaborators the engine is injected with: the URL
normalizer, `urljoin`, the subclass predicate `is_article_link`, and the
page loader (`requests.get` + link scan; `none` models a raised
`RequestException`/`Exception`, whose handler just logs and continues).
Record extraction and flushing mutate only `collected_data`, never the
frontier or the visited set, so they are modelled separately (see the
gigacomputer detail phase and the flush system below). -/

structure CrawlEnv (U : Type) where
  norm : U → U
  join : U → U → U
  isArticle : U → Bool
  page : U → Option (List U)

structure CrawlState (U : Type) where
  queue : List U
  visited : List U
  fetched : List U
deriving DecidableEq, Repr

/-- `self.url_queue = [normalize_url(url) for url in self.start_urls]`,
empty visited set. `fetched` is the ghost trace of URLs passed to
`requests.get`, in order. -/
def crawlInit {U : Type} (env : CrawlEnv U) (startUrls : List U) : CrawlState U :=
  ⟨startUrls.map env.norm, [], []⟩

/-- One iteration of the `while self.url_queue:` body: pop, re-normalize,
skip if visited, else mark visited, fetch, and append every discovered
link whose normalized join is unvisited and recognized as an article link.
The links are checked against the visited set only — not against the
queue. -/
def crawlStep {U : Type} [DecidableEq U] (env : CrawlEnv U) (s : CrawlState U) :
    CrawlState U :=
  match s.queue with
  | [] => s
  | u :: rest =>
    let cu := env.norm u
    if cu ∈ s.visited then { s with queue := rest }
    else
      let visited := s.visited ++ [cu]
      let fetched := s.fetched ++ [cu]
      match env.page cu with
      | none => ⟨rest, visited, fetched⟩
      | some links =>
        let fresh := links.filterMap fun l =>
          let fu := env.norm (env.join cu l)
          if fu ∉ visited ∧ env.isArticle fu then some fu else none
        ⟨rest ++ fresh, visited, fetched⟩

/-- Run the loop for at most `fuel` iterations (the Python loop runs until
the queue empties; every theorem below holds for every fuel). -/
def crawlRun {U : Type} [DecidableEq U] (env : CrawlEnv U) :
    Nat → CrawlState U → CrawlState U
  | 0, s => s
  | n + 1, s => if s.queue = [] then s else crawlRun env n (crawlStep env s)

/-! ## `PlaneoCrawler.crawl` — listing phase

The listing loop of `src/crawler/src/crawlers/planeo_crawler.py`
(lines 171–192).  Unlike `BaseCrawler.crawl`, the popped URL is *not*
re-normalized, and the `next_url` returned by `get_planeo_next_page_url`
is enqueued as-is (un-normalized) when it is not in the visited set.
`fetchOk u = false` models an exception raised while loading/processing
the listing page (caught by the `except` arm: log and continue). -/

structure ListingEnv (U : Type) where
  norm : U → U
  join : U → U → U
  isArticle : U → Bool
  fetchOk : U → Bool
  links : U → List U
  next : U → Option U

structure ListingState (U : Type) where
  queue : List U
  visited : List U
  fetched : List U
  products : List U
deriving DecidableEq, Repr

def listingInit {U : Type} (env : ListingEnv U) (startUrls : List U) :
    ListingState U :=
  ⟨startUrls.map env.norm, [], [], []⟩

def listingStep {U : Type} [DecidableEq U] (env : ListingEnv U)
    (s : ListingState U) : ListingState U :=
  match s.queue with
  | [] => s
  | u :: rest =>
    if u ∈ s.visited then { s with queue := rest }
    else
      let visited := s.visited ++ [u]
      let fetched := s.fetched ++ [u]
      if env.fetchOk u then
        let products := (env.links u).foldl
          (fun ps l =>
            let fu := env.norm (env.join u l)
            if env.isArticle fu ∧ fu ∉ ps then ps ++ [fu] else ps)
          s.products
        let queue2 :=
          match env.next u with
          | some nu => if nu ∈ visited then rest else rest ++ [nu]
          | none => rest
        ⟨queue2, visited, fetched, products⟩
      else ⟨rest, visited, fetched, s.products⟩

def listingRun {U : Type} [DecidableEq U] (env : ListingEnv U) :
    Nat → ListingState U → ListingState U
  | 0, s => s
  | n + 1, s => if s.queue = [] then s else listingRun env n (listingStep env s)

/-! ## `GigacomputerCrawler` — product-page parsing and detail phase

`_parse_gigacomputer_product_page` reads, from the parsed page: the
`div#parameters` element and its `div.parameter` blocks (each with an
optional `div.title` text and `div.item` children holding optional
`span.name`/`span.value` texts), and the `content` attribute of the price
span inside `div#priceGroup`.  `GigaSoup` records exactly those
observations.  Python dicts are modelled as association lists with
insert-or-overwrite assignment; `str.lower` on block titles is modelled on
its ASCII fragment. -/

abbrev PyDict := List (String × Option String)

/-- Python `d[k] = v` for a string-keyed dict of optional values. -/
def dictSet (d : PyDict) (k : String) (v : Option String) : PyDict :=
  if d.any (·.1 == k) then d.map fun p => if p.1 == k then (k, v) else p
  else d ++ [(k, v)]

/-- Python `d[k] = v` for `block_data` (string values). -/
def strDictSet (d : List (String × String)) (k v : String) :
    List (String × String) :=
  if d.any (·.1 == k) then d.map fun p => if p.1 == k then (k, v) else p
  else d ++ [(k, v)]

/-- Python `d.get(k)`. -/
def strDictGet (d : List (String × String)) (k : String) : Option String :=
  (d.find? (·.1 == k)).map (·.2)

/-- Python `a or b` on optional strings (`None` and `""` are falsy). -/
def pyOr (a b : Option String) : Option String :=
  match a with
  | some v => if v = "" then b else some v
  | none => b

/-- `" ".join(filter(None, parts)) or None`. -/
def joinSome (parts : List (Option String)) : Option String :=
  let xs := (parts.filterMap id).filter (· ≠ "")
  let j := String.intercalate " " xs
  if j = "" then none else some j

/-- ASCII fragment of `str.lower` on strings. -/
def strLowerS (s : String) : String := String.mk (lowerStr s.data)

structure GigaItem where
  nameSpan : Option String
  valueSpan : Option String
deriving DecidableEq, Repr

structure GigaBlock where
  title : Option String
  items : List GigaItem
deriving DecidableEq, Repr

structure GigaSoup where
  parameters : Option (List GigaBlock)
  price : Option String
deriving DecidableEq, Repr

/-- The `data = {...}` literal at the top of
`_parse_gigacomputer_product_page`: twelve fields, all `None`. -/
def gigaInitData : PyDict :=
  [("model_procesoru", none), ("pocet_jader_procesoru", none),
   ("frekvence_procesoru", none), ("model_graficke_karty", none),
   ("pamet_graficke_karty", none), ("kapacita_uloziste", none),
   ("typ_uloziste", none), ("velikost_ram", none),
   ("provedeni_pocitace", none), ("operacni_system", none),
   ("znacka", none), ("price", none)]

/-- The inner `for item in items` loop building `block_data`. -/
def gigaBlockData (items : List GigaItem) : List (String × String) :=
  items.foldl
    (fun d it =>
      match it.nameSpan, it.valueSpan with
      | some k, some v => strDictSet d k v
      | _, _ => d)
    []

/-- The `for block in parameters_div.find_all("div", class_="parameter")`
body: skip blocks without title or items, then dispatch on the lowered
title. -/
def gigaApplyBlock (data : PyDict) (b : GigaBlock) : PyDict :=
  match b.title with
  | none => data
  | some t =>
    if b.items.isEmpty then data
    else
      let bd := gigaBlockData b.items
      let title := strLowerS t
      if title = "procesor" then
        let model := joinSome [strDictGet bd "Výrobce",
                               strDictGet bd "Modelová řada",
                               strDictGet bd "Typ"]
        let d1 := dictSet data "model_procesoru" model
        let d2 := dictSet d1 "pocet_jader_procesoru" (strDictGet bd "Počet jader")
        dictSet d2 "frekvence_procesoru" (strDictGet bd "Frekvence")
      else if title = "grafická karta" then
        let gm := joinSome [strDictGet bd "Modelová řada", strDictGet bd "Typ"]
        let d1 := dictSet data "model_graficke_karty" gm
        dictSet d1 "pamet_graficke_karty" (strDictGet bd "Vlastní paměť")
      else if title = "pevný disk" then
        let d1 := dictSet data "kapacita_uloziste"
          (pyOr (strDictGet bd "Celková kapacita") (strDictGet bd "Kapacita SSD"))
        dictSet d1 "typ_uloziste" (strDictGet bd "Typ")
      else if title = "operační paměť" then
        dictSet data "velikost_ram" (strDictGet bd "Celková kapacita")
      else if title = "velikost" then
        dictSet data "provedeni_pocitace" (strDictGet bd "Velikost")
      else if title = "operační systém" then
        dictSet data "operacni_system" (strDictGet bd "Název")
      else data

/-- `_parse_gigacomputer_product_page`: with no `div#parameters` the
all-`None` dict is returned immediately (before the price lookup);
otherwise the blocks are folded over `data` and the price is filled in
when present. -/
def parseGigaPage (soup : GigaSoup) : PyDict :=
  match soup.parameters with
  | none => gigaInitData
  | some blocks =>
    let d := blocks.foldl gigaApplyBlock gigaInitData
    match soup.price with
    | some c => dictSet d "price" (some c)
    | none => d

/-- Python truthiness of a dict: nonempty. -/
def pyTruthyDict (d : PyDict) : Bool := !d.isEmpty

/-- The page loader for detail pages: `none` models an exception inside
`extract_data_from_page` (its `except` arm returns `None`). -/
structure GigaEnv where
  pageSoup : String → Option GigaSoup

/-- `GigacomputerCrawler.extract_data_from_page`. -/
def giga_extract_data_from_page (env : GigaEnv) (u : String) :
    Option PyDict :=
  (env.pageSoup u).map parseGigaPage

/-- Is every field of the record empty (`None`)? -/
def allFieldsEmpty (d : PyDict) : Bool := d.all (·.2.isNone)

/-- One iteration of phase 2 of `GigacomputerCrawler.crawl` (lines
258–268): skip visited product URLs, else mark visited, extract, and —
`if data:` — append the record.  The state is (visited set, sequence of
records appended to `collected_data` so far); flushing only moves already
appended records to the writer, so the second component is exactly the
sequence of records the engine emits. -/
def gigaDetailStep (env : GigaEnv) (st : List String × List PyDict)
    (u : String) : List String × List PyDict :=
  if u ∈ st.1 then st
  else
    let visited := st.1 ++ [u]
    match giga_extract_data_from_page env u with
    | some d => if pyTruthyDict d then (visited, st.2 ++ [d]) else (visited, st.2)
    | none => (visited, st.2)

/-- Phase 2 of `GigacomputerCrawler.crawl`: iterate the collected product
URLs once. -/
def gigaDetailPhase (env : GigaEnv) (productUrls : List String)
    (visited0 : List String) : List String × List PyDict :=
  productUrls.foldl (gigaDetailStep env) (visited0, [])

/-! ## `writer_thread` — accumulation and persistence

`src/crawler/src/writer/writer.py`.  `acc` is `all_data` (defined on the
sources registered in `write_done_events` at writer start, the list `K`);
`files` maps a source to the JSON array last written to
`<output>/<source>.json` (file contents are modelled as the record list
itself, `json.dump`/load being inverse on it); `events` records which
sources this writer run has acknowledged.  A batch for a source outside
`K` hits `all_data[source_name]` and raises `KeyError` before any write
or acknowledgement. -/

structure WState (R : Type) where
  acc : String → List R
  files : String → Option (List R)
  events : String → Bool

def wInit {R : Type} : WState R := ⟨fun _ => [], fun _ => none, fun _ => false⟩

/-- One non-sentinel iteration of the writer loop: extend the per-source
accumulator, rewrite that source's file with the whole accumulated list,
then set the source's completion event — or raise `KeyError` for an
unregistered source. -/
def writerStepE {R : Type} (K : List String) (w : WState R)
    (m : String × List R) : Except String (WState R) :=
  if m.1 ∈ K then
    .ok ⟨fun s => if s = m.1 then w.acc m.1 ++ m.2 else w.acc s,
         fun s => if s = m.1 then some (w.acc m.1 ++ m.2) else w.files s,
         fun s => if s = m.1 then true else w.events s⟩
  else .error "KeyError"

/-- The writer loop over a sequence of received messages: stop silently at
the `"STOP"` sentinel, die with the error (state frozen at that point) on
`KeyError`. -/
def writerRun {R : Type} (K : List String) :
    List (String × List R) → WState R → WState R × Option String
  | [], w => (w, none)
  | m :: ms, w =>
    if m.1 = "STOP" then (w, none)
    else
      match writerStepE K w m with
      | .ok w2 => writerRun K ms w2
      | .error e => (w, some e)

/-- The batches sent for source `s` within a message sequence, in order. -/
def batchesOf {R : Type} (s : String) (ms : List (String × List R)) :
    List (List R) :=
  (ms.filter fun m => m.1 == s).map (·.2)

/-! ## The flush protocol — engines, channel, events

A small-step interleaving model of `BaseCrawler._flush_data` (clear the
event; put `(name, batch)` on the queue; wait for the event) running
concurrently with the writer loop (pop a message; process it; set that
source's event).  `epc i` is the program counter of engine `i` inside its
flush sequence (`run` = outside a flush, crawling); `wproc` is the message
the writer has popped but not yet acknowledged.  `main.py` sets every
event before starting the threads, so `flushInit` has all events set.
The `"STOP"` sentinel only ends the writer loop after all engines have
finished and is irrelevant to the in-flight bound, so it is not modelled
as a step. -/

inductive EnginePC
  | run
  | cleared
  | waiting
deriving DecidableEq, Repr

structure FlushSys (R : Type) where
  queue : List (String × List R)
  event : String → Bool
  epc : String → EnginePC
  wproc : Option (String × List R)

inductive FlushStep (R : Type) : FlushSys R → FlushSys R → Prop
  | clear (s : FlushSys R) (i : String) (h : s.epc i = .run) :
      FlushStep R s ⟨s.queue, fun j => if j = i then false else s.event j,
                     fun j => if j = i then .cleared else s.epc j, s.wproc⟩
  | put (s : FlushSys R) (i : String) (b : List R) (h : s.epc i = .cleared) :
      FlushStep R s ⟨s.queue ++ [(i, b)], s.event,
                     fun j => if j = i then .waiting else s.epc j, s.wproc⟩
  | wake (s : FlushSys R) (i : String) (h1 : s.epc i = .waiting)
      (h2 : s.event i = true) :
      FlushStep R s ⟨s.queue, s.event,
                     fun j => if j = i then .run else s.epc j, s.wproc⟩
  | wpop (s : FlushSys R) (m : String × List R) (rest : List (String × List R))
      (h1 : s.wproc = none) (h2 : s.queue = m :: rest) :
      FlushStep R s ⟨rest, s.event, s.epc, some m⟩
  | wdone (s : FlushSys R) (m : String × List R) (h : s.wproc = some m) :
      FlushStep R s ⟨s.queue, fun j => if j = m.1 then true else s.event j,
                     s.epc, none⟩

def flushInit {R : Type} : FlushSys R := ⟨[], fun _ => true, fun _ => .run, none⟩

/-- States reachable from the initial system state. -/
def FlushReachable (R : Type) (s : FlushSys R) : Prop :=
  Relation.ReflTransGen (FlushStep R) flushInit s

/-- The number of unacknowledged batches of engine `i`: messages still in
the channel plus the one the writer is processing, if it is `i`'s. -/
def inflight {R : Type} (s : FlushSys R) (i : String) : Nat :=
  s.queue.countP (fun m => m.1 == i) +
    (match s.wproc with
     | some m => if m.1 = i then 1 else 0
     | none => 0)

/-! ## Concrete instances used by counterexamples and witnesses -/

/-- Total wrapper around `normalize_url` for use inside the crawl-engine
models (the engine would crash on a `ValueError`; every URL these
instances feed it is bracket-free, so the error branch is never taken). -/
def normalize_url_total (s : String) : String :=
  match normalize_url s.data with
  | .ok l => String.mk l
  | .error _ => s

/-- Two listing pages that both link to the same product URL. -/
def dupFrontierEnv : CrawlEnv String :=
  { norm := normalize_url_total
    join := fun _ l => l
    isArticle := fun u => u == "http://h/zbozi/d.html"
    page := fun u =>
      if u == "http://h/l0" then some ["http://h/zbozi/d.html"]
      else if u == "http://h/l1" then some ["http://h/zbozi/d.html"]
      else none }

/-- A crawl environment whose normalizer — plain ASCII lower-casing — is
idempotent, instantiating the visited-set pairwise theorem. -/
def lowerNormEnv : CrawlEnv String :=
  { norm := fun s => ⟨lowerStr s.data⟩
    join := fun _ l => l
    isArticle := fun _ => true
    page := fun _ => none }

def planeoL0 : String := "http://www.planeo.cz/pocitace"

def planeoL1 : String := "http://www.planeo.cz/pocitace?offset=24"

/-- Scenario B of the spec: cyclic pagination `L0 → L1 → L0`; the listing
pages carry no product links. -/
def planeoCycleEnv : ListingEnv String :=
  { norm := normalize_url_total
    join := fun _ l => l
    isArticle := fun _ => false
    fetchOk := fun _ => true
    links := fun _ => []
    next := fun u =>
      if u == planeoL0 then some planeoL1
      else if u == planeoL1 then some planeoL0
      else none }

/-- A product page whose parsed document has no `div#parameters` (the
path on lines 127–130 of `gigacomputer_crawler.py`): extraction returns
the all-`None` dict. -/
def gigaNoParamsSoup : GigaSoup := ⟨none, none⟩

def gigaEmptyPageEnv : GigaEnv :=
  ⟨fun u => if u == "https://www.gigacomputer.cz/zbozi/pc.html"
            then some gigaNoParamsSoup else none⟩

/-- Invariant of the `BaseCrawler.crawl` loop: the fetch trace lists
exactly the visited set, in insertion order, without duplicates. -/
def CrawlInv {U : Type} (s : CrawlState U) : Prop :=
  s.fetched = s.visited ∧ s.visited.Nodup

/-- Inductive invariant of the flush protocol. -/
def FlushInv {R : Type} (s : FlushSys R) : Prop :=
  ∀ i : String,
    (s.epc i = .run → inflight s i = 0) ∧
    (s.epc i = .cleared → inflight s i = 0 ∧ s.event i = false) ∧
    (s.epc i = .waiting →
      (inflight s i = 1 ∧ s.event i = false) ∨
      (inflight s i = 0 ∧ s.event i = true))

/-! ## Theorems -/


lemma dictSet_ne_nil (d : PyDict) (k : String) (v : Option String) (h : d ≠ []) :
    dictSet d k v ≠ [] := by
  unfold dictSet
  split
  · simpa using h
  · simp

lemma gigaApplyBlock_ne_nil (d : PyDict) (b : GigaBlock) (h : d ≠ []) :
    gigaApplyBlock d b ≠ [] := by
  unfold gigaApplyBlock
  split
  · exact h
  · split
    · exact h
    · dsimp only
      repeat' split
      all_goals repeat' first | exact h | apply dictSet_ne_nil

lemma parseGigaPage_ne_nil (soup : GigaSoup) : parseGigaPage soup ≠ [] := by
  unfold parseGigaPage
  split
  · decide
  · have hfold : ∀ (blocks : List GigaBlock) (d : PyDict), d ≠ [] →
        blocks.foldl gigaApplyBlock d ≠ [] := by
      intro blocks
      induction blocks with
      | nil => intro d hd; simpa using hd
      | cons b bs ih =>
        intro d hd
        exact ih _ (gigaApplyBlock_ne_nil d b hd)
    have h1 : (gigaInitData : PyDict) ≠ [] := by decide
    split
    · exact dictSet_ne_nil _ _ _ (hfold _ _ h1)
    · exact hfold _ _ h1

/-- Claim C1, amended: every record that `_extract_data_from_page` returns for an unvisited detail URL is appended to the engine's batch, including a record whose fields are all `None`; only a `None` result (no parsed page) yields zero records. -/
theorem giga_extracted_record_always_appended (env : GigaEnv)
    (vis : List String) (em : List PyDict) (u : String) (d : PyDict)
    (hu : u ∉ vis) (hd : giga_extract_data_from_page env u = some d) :
    gigaDetailStep env (vis, em) u = (vis ++ [u], em ++ [d]) := by
  have hne : d ≠ [] := by
    unfold giga_extract_data_from_page at hd
    rcases Option.map_eq_some'.mp hd with ⟨soup, _, rfl⟩
    exact parseGigaPage_ne_nil soup
  have hie : d.isEmpty = false := by
    cases d with
    | nil => exact absurd rfl hne
    | cons a l => rfl
  unfold gigaDetailStep
  rw [if_neg hu, hd]
  simp [pyTruthyDict, hie]

/-- Claim C1, counterexample: a product page whose soup has no `div#parameters` makes `_parse_gigacomputer_product_page` return its initial dict with every field `None`; a non-empty dict is truthy, so `if data:` holds and the all-empty record is appended to the batch rather than discarded. -/
theorem giga_all_empty_record_emitted_cex :
    gigaDetailPhase gigaEmptyPageEnv ["https://www.gigacomputer.cz/zbozi/pc.html"] []
      = (["https://www.gigacomputer.cz/zbozi/pc.html"], [gigaInitData]) ∧
    allFieldsEmpty gigaInitData = true := by
  constructor
  · decide
  · decide

/-- Claim C1, witness: the amended theorem applied to the concrete no-parameters page environment. -/
theorem giga_extracted_record_always_appended_witness :
    gigaDetailStep gigaEmptyPageEnv ([], []) "https://www.gigacomputer.cz/zbozi/pc.html"
      = (["https://www.gigacomputer.cz/zbozi/pc.html"], [gigaInitData]) :=
  giga_extracted_record_always_appended gigaEmptyPageEnv [] [] _ gigaInitData
    (by decide) (by decide)


/- crawl invariant -/

lemma crawlStep_inv {U : Type} [DecidableEq U] (env : CrawlEnv U)
    (s : CrawlState U) (h : CrawlInv s) : CrawlInv (crawlStep env s) := by
  obtain ⟨hfv, hnd⟩ := h
  rcases s with ⟨q, vis, fet⟩
  dsimp at hfv hnd
  cases q with
  | nil => exact ⟨hfv, hnd⟩
  | cons u rest =>
    unfold crawlStep
    dsimp only
    by_cases hvis : env.norm u ∈ vis
    · rw [if_pos hvis]
      exact ⟨hfv, hnd⟩
    · rw [if_neg hvis]
      have hnd2 : (vis ++ [env.norm u]).Nodup := by
        simp [List.nodup_append, hnd, hvis]
      cases hp : env.page (env.norm u) with
      | none => exact ⟨by rw [hfv], hnd2⟩
      | some links => exact ⟨by rw [hfv], hnd2⟩

lemma crawlRun_inv {U : Type} [DecidableEq U] (env : CrawlEnv U) (n : Nat) :
    ∀ s : CrawlState U, CrawlInv s → CrawlInv (crawlRun env n s) := by
  induction n with
  | zero => intro s h; exact h
  | succ n ih =>
    intro s h
    rw [crawlRun]
    split
    · exact h
    · exact ih _ (crawlStep_inv env s h)

lemma crawlInit_inv {U : Type} (env : CrawlEnv U) (startUrls : List U) :
    CrawlInv (crawlInit env startUrls) := ⟨rfl, List.nodup_nil⟩

/-- Claim C4: over any run of the `BaseCrawler.crawl` loop, the trace of URLs passed to `requests.get` has no duplicates, and a popped URL whose normalized form is already in the visited set is skipped without a fetch. -/
theorem crawl_no_duplicate_fetch {U : Type} [DecidableEq U] (env : CrawlEnv U)
    (startUrls : List U) (n : Nat) :
    ((crawlRun env n (crawlInit env startUrls)).fetched).Nodup ∧
    (∀ (s : CrawlState U) (u : U) (rest : List U),
      s.queue = u :: rest → env.norm u ∈ s.visited →
      (crawlStep env s).fetched = s.fetched ∧ (crawlStep env s).queue = rest) := by
  constructor
  · obtain ⟨hfv, hnd⟩ := crawlRun_inv env n _ (crawlInit_inv env startUrls)
    rw [hfv]; exact hnd
  · intro s u rest hq hvis
    rcases s with ⟨q, vis, fet⟩
    cases hq
    unfold crawlStep
    dsimp only
    rw [if_pos hvis]
    exact ⟨rfl, rfl⟩

lemma crawlStep_norm_fixed {U : Type} [DecidableEq U] (env : CrawlEnv U)
    (hidem : ∀ u, env.norm (env.norm u) = env.norm u) (s : CrawlState U)
    (hs : ∀ e ∈ s.visited, env.norm e = e) :
    ∀ e ∈ (crawlStep env s).visited, env.norm e = e := by
  rcases s with ⟨q, vis, fet⟩
  dsimp at hs
  cases q with
  | nil => exact hs
  | cons u rest =>
    unfold crawlStep
    dsimp only
    by_cases hvis : env.norm u ∈ vis
    · rw [if_pos hvis]
      exact hs
    · rw [if_neg hvis]
      have hnew : ∀ e ∈ vis ++ [env.norm u], env.norm e = e := by
        intro e he
        rcases List.mem_append.mp he with h1 | h1
        · exact hs e h1
        · rcases List.mem_singleton.mp h1 with rfl
          exact hidem u
      cases hp : env.page (env.norm u) with
      | none => exact hnew
      | some links => exact hnew

lemma crawlRun_norm_fixed {U : Type} [DecidableEq U] (env : CrawlEnv U)
    (hidem : ∀ u, env.norm (env.norm u) = env.norm u) (n : Nat) :
    ∀ s : CrawlState U, (∀ e ∈ s.visited, env.norm e = e) →
      ∀ e ∈ (crawlRun env n s).visited, env.norm e = e := by
  induction n with
  | zero => intro s h; exact h
  | succ n ih =>
    intro s h
    rw [crawlRun]
    split
    · exact h
    · exact ih _ (crawlStep_norm_fixed env hidem s h)

lemma pairwise_of_nodup_fixed {U : Type} (f : U → U) :
    ∀ l : List U, l.Nodup → (∀ e ∈ l, f e = e) →
      l.Pairwise (fun a b => f a ≠ f b)
  | [], _, _ => List.Pairwise.nil
  | a :: t, hnd, hfix => by
    rw [List.nodup_cons] at hnd
    refine List.Pairwise.cons ?_
      (pairwise_of_nodup_fixed f t hnd.2 fun e he => hfix e (List.mem_cons_of_mem _ he))
    intro b hb
    rw [hfix a (List.mem_cons_self a t), hfix b (List.mem_cons_of_mem _ hb)]
    intro hEq
    exact hnd.1 (by rw [hEq]; exact hb)

/-- Claim C5, amended: when the engine's normalizer is idempotent, the visited set never contains two entries that normalize to the same value — every stored entry is a normalization image, hence a fixed point of the normalizer, and the set stays duplicate-free after every step. The actual `normalize_url` is not idempotent, so the code does not force the norm-level property for it, and the frontier fails the property outright. -/
theorem crawl_visited_norm_pairwise {U : Type} [DecidableEq U] (env : CrawlEnv U)
    (startUrls : List U) (n : Nat)
    (hidem : ∀ u, env.norm (env.norm u) = env.norm u) :
    ((crawlRun env n (crawlInit env startUrls)).visited).Pairwise
      (fun a b => env.norm a ≠ env.norm b) := by
  have hnd := (crawlRun_inv env n _ (crawlInit_inv env startUrls)).2
  have hfix := crawlRun_norm_fixed env hidem n (crawlInit env startUrls)
    (by intro e he; exact (List.not_mem_nil e he).elim)
  exact pairwise_of_nodup_fixed env.norm _ hnd hfix

/-- Claim C5, counterexample: two listing pages that both link the same article leave two entries with the same normalized form in the frontier, because a discovered link is checked against the visited set only, never against the queue. -/
theorem frontier_duplicate_cex :
    (crawlRun dupFrontierEnv 2 (crawlInit dupFrontierEnv ["http://h/l0", "http://h/l1"])).queue
      = ["http://h/zbozi/d.html", "http://h/zbozi/d.html"] ∧
    ¬ ((crawlRun dupFrontierEnv 2
          (crawlInit dupFrontierEnv ["http://h/l0", "http://h/l1"])).queue.Pairwise
        (fun a b => dupFrontierEnv.norm a ≠ dupFrontierEnv.norm b)) := by
  constructor
  · decide
  · decide

/- listing runner -/

lemma listingRun_empty {U : Type} [DecidableEq U] (env : ListingEnv U) (n : Nat)
    (s : ListingState U) (h : s.queue = []) : listingRun env n s = s := by
  cases n with
  | zero => rfl
  | succ n => rw [listingRun, if_pos h]

lemma listingRun_add {U : Type} [DecidableEq U] (env : ListingEnv U) (a b : Nat) :
    ∀ s : ListingState U, listingRun env (a + b) s = listingRun env b (listingRun env a s) := by
  induction a with
  | zero => intro s; rw [Nat.zero_add]; rfl
  | succ a ih =>
    intro s
    rw [Nat.succ_add]
    by_cases h : s.queue = []
    · rw [listingRun, if_pos h, listingRun, if_pos h, listingRun_empty env b s h]
    · rw [listingRun, if_neg h, listingRun, if_neg h, ih]

/-- Claim C6: with cyclic pagination L0 -> L1 -> L0 the Planeo listing loop terminates after fetching L0 and L1 exactly once each, for every fuel bound at least 2: the visited set blocks re-enqueueing L0 and the queue empties. -/
theorem planeo_cyclic_pagination_terminates (n : Nat) (h : 2 ≤ n) :
    (listingRun planeoCycleEnv n (listingInit planeoCycleEnv [planeoL0])).fetched
        = [planeoL0, planeoL1] ∧
    (listingRun planeoCycleEnv n (listingInit planeoCycleEnv [planeoL0])).queue = [] := by
  obtain ⟨k, rfl⟩ := Nat.exists_eq_add_of_le h
  rw [listingRun_add]
  have hq : (listingRun planeoCycleEnv 2 (listingInit planeoCycleEnv [planeoL0])).queue = [] := by
    decide
  rw [listingRun_empty _ _ _ hq]
  exact ⟨by decide, hq⟩

/-- Claim C6, witness: the theorem applied at fuel 5. -/
theorem planeo_cyclic_pagination_witness :
    (listingRun planeoCycleEnv 5 (listingInit planeoCycleEnv [planeoL0])).fetched
        = [planeoL0, planeoL1] ∧
    (listingRun planeoCycleEnv 5 (listingInit planeoCycleEnv [planeoL0])).queue = [] :=
  planeo_cyclic_pagination_terminates 5 (by decide)


/-- Claim C4, witness: the theorem applied to a concrete environment, and its skip clause applied to a concrete state whose queued URL is already visited. -/
theorem crawl_no_duplicate_fetch_witness :
    ((crawlRun dupFrontierEnv 3 (crawlInit dupFrontierEnv ["http://h/l0"])).fetched).Nodup ∧
    ((crawlStep dupFrontierEnv ⟨["http://h/l0"], ["http://h/l0"], ["http://h/l0"]⟩).fetched
        = ["http://h/l0"] ∧
     (crawlStep dupFrontierEnv ⟨["http://h/l0"], ["http://h/l0"], ["http://h/l0"]⟩).queue
        = []) :=
  ⟨(crawl_no_duplicate_fetch dupFrontierEnv ["http://h/l0"] 3).1,
   (crawl_no_duplicate_fetch dupFrontierEnv ["http://h/l0"] 3).2
     ⟨["http://h/l0"], ["http://h/l0"], ["http://h/l0"]⟩ "http://h/l0" [] rfl (by decide)⟩


/- writer accumulation -/

lemma writerRun_known {R : Type} (K : List String) (s : String) :
    ∀ (ms : List (String × List R)) (w : WState R),
      (∀ m ∈ ms, m.1 ∈ K ∧ m.1 ≠ "STOP") →
      (writerRun K ms w).2 = none ∧
      (writerRun K ms w).1.acc s = w.acc s ++ (batchesOf s ms).flatten ∧
      (batchesOf s ms = [] → (writerRun K ms w).1.files s = w.files s) ∧
      (batchesOf s ms ≠ [] →
        (writerRun K ms w).1.files s = some (w.acc s ++ (batchesOf s ms).flatten)) := by
  intro ms
  induction ms with
  | nil =>
    intro w _
    refine ⟨rfl, by simp [writerRun, batchesOf], fun _ => rfl, fun h => ?_⟩
    exact absurd rfl h
  | cons m ms ih =>
    intro w hall
    obtain ⟨hK, hS⟩ := hall m (by simp)
    have hrest : ∀ x ∈ ms, x.1 ∈ K ∧ x.1 ≠ "STOP" := fun x hx => hall x (by simp [hx])
    rw [writerRun, if_neg hS]
    unfold writerStepE
    rw [if_pos hK]
    set w2 : WState R :=
      ⟨fun t => if t = m.1 then w.acc m.1 ++ m.2 else w.acc t,
       fun t => if t = m.1 then some (w.acc m.1 ++ m.2) else w.files t,
       fun t => if t = m.1 then true else w.events t⟩ with hw2
    obtain ⟨ih1, ih2, ih3, ih4⟩ := ih w2 hrest
    by_cases hsm : m.1 = s
    · subst hsm
      have hbc : batchesOf m.1 ((m.1, m.2) :: ms) = m.2 :: batchesOf m.1 ms := by
        simp [batchesOf, List.filter_cons]
      refine ⟨ih1, ?_, ?_, ?_⟩
      · rw [ih2, hbc]
        simp [hw2]
      · intro hnil
        rw [hbc] at hnil
        exact absurd hnil (by simp)
      · intro _
        by_cases hrest0 : batchesOf m.1 ms = []
        · rw [ih3 hrest0, hbc, hrest0]
          simp [hw2]
        · rw [ih4 hrest0, hbc]
          simp [hw2]
    · have hbeq : (m.1 == s) = false := by simp [hsm]
      have hbc : batchesOf s ((m.1, m.2) :: ms) = batchesOf s ms := by
        simp [batchesOf, List.filter_cons, hbeq]
      refine ⟨ih1, ?_, ?_, ?_⟩
      · rw [ih2, hbc]
        simp [hw2, Ne.symm hsm]
      · intro hnil
        rw [hbc] at hnil
        rw [ih3 hnil]
        simp [hw2, Ne.symm hsm]
      · intro hne
        rw [hbc] at hne
        rw [ih4 hne, hbc]
        simp [hw2, Ne.symm hsm]

/-- Claim C3: after the writer has processed a known source's batches, that source's file holds exactly the concatenation, in flush order, of all batches flushed so far for it, and its length is the sum of the batch lengths; the writer raises no error on known sources. -/
theorem writer_snapshot_complete {R : Type} (K : List String)
    (ms : List (String × List R)) (s : String)
    (hms : ∀ m ∈ ms, m.1 ∈ K ∧ m.1 ≠ "STOP") (hs : batchesOf s ms ≠ []) :
    (writerRun K ms (wInit : WState R)).2 = none ∧
    (writerRun K ms (wInit : WState R)).1.files s = some (batchesOf s ms).flatten ∧
    ((batchesOf s ms).flatten).length = ((batchesOf s ms).map List.length).sum := by
  obtain ⟨h1, _, _, h4⟩ := writerRun_known K s ms wInit hms
  refine ⟨h1, ?_, ?_⟩
  · rw [h4 hs]
    simp [wInit]
  · exact List.length_flatten _

/-- Claim C3, witness: the theorem applied to two concrete batches for the registered source. -/
theorem writer_snapshot_complete_witness :
    (writerRun ["stolnipocitace"]
        [("stolnipocitace", [1, 2]), ("stolnipocitace", [3])] (wInit : WState Nat)).2 = none ∧
    (writerRun ["stolnipocitace"]
        [("stolnipocitace", [1, 2]), ("stolnipocitace", [3])] (wInit : WState Nat)).1.files
        "stolnipocitace"
      = some (batchesOf "stolnipocitace"
          [("stolnipocitace", [1, 2]), ("stolnipocitace", [3])]).flatten ∧
    ((batchesOf "stolnipocitace"
        [("stolnipocitace", [1, 2]), ("stolnipocitace", [3])]).flatten).length
      = ((batchesOf "stolnipocitace"
          [("stolnipocitace", [1, 2]), ("stolnipocitace", [3])]).map List.length).sum :=
  writer_snapshot_complete ["stolnipocitace"] _ "stolnipocitace" (by decide) (by decide)

/- writer KeyError -/

lemma writerRun_unknown {R : Type} (K : List String) (s : String) (b : List R)
    (hs : s ∉ K) (hstop : s ≠ "STOP") :
    ∀ (pre : List (String × List R)) (rest : List (String × List R)) (w : WState R),
      (∀ m ∈ pre, m.1 ∈ K ∧ m.1 ≠ "STOP") →
      w.files s = none → w.events s = false →
      (writerRun K (pre ++ (s, b) :: rest) w).2 = some "KeyError" ∧
      (writerRun K (pre ++ (s, b) :: rest) w).1.files s = none ∧
      (writerRun K (pre ++ (s, b) :: rest) w).1.events s = false := by
  intro pre
  induction pre with
  | nil =>
    intro rest w _ hf he
    rw [List.nil_append, writerRun, if_neg hstop]
    unfold writerStepE
    rw [if_neg hs]
    exact ⟨rfl, hf, he⟩
  | cons m pre ih =>
    intro rest w hall hf he
    obtain ⟨hK, hS⟩ := hall m (by simp)
    have hmne : s ≠ m.1 := fun h => hs (h ▸ hK)
    rw [List.cons_append, writerRun, if_neg hS]
    unfold writerStepE
    rw [if_pos hK]
    exact ih rest _ (fun x hx => hall x (by simp [hx])) (by simp [hmne, hf]) (by simp [hmne, he])

/-- Claim C10: a (source, batch) message whose source is neither the `STOP` sentinel nor a key registered in the completion-event map at writer start makes the writer raise `KeyError` on `all_data[source_name]`: the batch is not persisted and no completion event is set for it. -/
theorem writer_unknown_source_keyerror {R : Type} (K : List String)
    (pre rest : List (String × List R)) (s : String) (b : List R)
    (hpre : ∀ m ∈ pre, m.1 ∈ K ∧ m.1 ≠ "STOP") (hs : s ∉ K) (hstop : s ≠ "STOP") :
    (writerRun K (pre ++ (s, b) :: rest) (wInit : WState R)).2 = some "KeyError" ∧
    (writerRun K (pre ++ (s, b) :: rest) (wInit : WState R)).1.files s = none ∧
    (writerRun K (pre ++ (s, b) :: rest) (wInit : WState R)).1.events s = false :=
  writerRun_unknown K s b hs hstop pre rest wInit hpre rfl rfl

/-- Claim C10, witness: the theorem applied to a concrete message for the unregistered source `alza` after one registered message. -/
theorem writer_unknown_source_keyerror_witness :
    (writerRun ["stolnipocitace"]
        ([("stolnipocitace", [0])] ++ ("alza", [1]) :: []) (wInit : WState Nat)).2
      = some "KeyError" ∧
    (writerRun ["stolnipocitace"]
        ([("stolnipocitace", [0])] ++ ("alza", [1]) :: []) (wInit : WState Nat)).1.files "alza"
      = none ∧
    (writerRun ["stolnipocitace"]
        ([("stolnipocitace", [0])] ++ ("alza", [1]) :: []) (wInit : WState Nat)).1.events "alza"
      = false :=
  writer_unknown_source_keyerror ["stolnipocitace"] [("stolnipocitace", [0])] []
    "alza" [1] (by decide) (by decide) (by decide)


/- flush protocol -/

lemma flushInit_inv {R : Type} : FlushInv (flushInit : FlushSys R) := by
  intro i
  refine ⟨fun _ => rfl, fun h => ?_, fun h => ?_⟩ <;>
    simp [flushInit] at h

lemma countP_eq_zero_of_inflight {R : Type} (s : FlushSys R) (i : String)
    (h : inflight s i = 0) : s.queue.countP (fun m => m.1 == i) = 0 := by
  unfold inflight at h
  omega

lemma flushStep_inv {R : Type} {s t : FlushSys R} (hs : FlushInv s)
    (st : FlushStep R s t) : FlushInv t := by
  cases st with
  | clear i h =>
    intro j
    obtain ⟨h1, h2, h3⟩ := hs j
    have hinf : inflight ⟨s.queue, fun j => if j = i then false else s.event j,
        fun j => if j = i then .cleared else s.epc j, s.wproc⟩ j = inflight s j := rfl
    by_cases hj : j = i
    · subst hj
      refine ⟨fun hr => ?_, fun _ => ?_, fun hw => ?_⟩
      · simp at hr
      · exact ⟨hinf.trans (h1 h), by simp⟩
      · simp at hw
    · refine ⟨fun hr => ?_, fun hc => ?_, fun hw => ?_⟩
      · simp [hj] at hr
        exact hinf.trans (h1 hr)
      · simp [hj] at hc
        obtain ⟨hc1, hc2⟩ := h2 hc
        exact ⟨hinf.trans hc1, by simp [hj, hc2]⟩
      · simp [hj] at hw
        rcases h3 hw with ⟨ha, hb⟩ | ⟨ha, hb⟩
        · exact Or.inl ⟨hinf.trans ha, by simp [hj, hb]⟩
        · exact Or.inr ⟨hinf.trans ha, by simp [hj, hb]⟩
  | put i b h =>
    intro j
    obtain ⟨h1, h2, h3⟩ := hs j
    have hinf : ∀ k, inflight ⟨s.queue ++ [(i, b)], s.event,
        fun j => if j = i then .waiting else s.epc j, s.wproc⟩ k
        = inflight s k + (if (i == k) then 1 else 0) := by
      intro k
      unfold inflight
      rw [List.countP_append]
      simp only [List.countP_cons, List.countP_nil]
      omega
    by_cases hj : j = i
    · subst hj
      refine ⟨fun hr => ?_, fun hc => ?_, fun _ => ?_⟩
      · simp at hr
      · simp at hc
      · obtain ⟨hz, he⟩ := h2 h
        refine Or.inl ⟨?_, he⟩
        rw [hinf j, hz]
        simp
    · refine ⟨fun hr => ?_, fun hc => ?_, fun hw => ?_⟩
      · simp [hj] at hr
        have hij : ¬ i = j := fun hh => hj hh.symm
        rw [hinf j, h1 hr]
        simp [hij]
      · simp [hj] at hc
        obtain ⟨hc1, hc2⟩ := h2 hc
        have hij : ¬ i = j := fun hh => hj hh.symm
        refine ⟨?_, hc2⟩
        rw [hinf j, hc1]
        simp [hij]
      · simp [hj] at hw
        have hij : ¬ i = j := fun hh => hj hh.symm
        have hiz : (if (i == j) then 1 else 0) = 0 := by
          simp [hij]
        rcases h3 hw with ⟨ha, hb⟩ | ⟨ha, hb⟩
        · exact Or.inl ⟨by rw [hinf j, ha, hiz], hb⟩
        · exact Or.inr ⟨by rw [hinf j, ha, hiz], hb⟩
  | wake i h1e h2e =>
    intro j
    obtain ⟨h1, h2, h3⟩ := hs j
    have hinf : inflight ⟨s.queue, s.event,
        fun j => if j = i then .run else s.epc j, s.wproc⟩ j = inflight s j := rfl
    by_cases hj : j = i
    · subst hj
      refine ⟨fun _ => ?_, fun hc => ?_, fun hw => ?_⟩
      · rcases h3 h1e with ⟨_, hb⟩ | ⟨ha, _⟩
        · rw [h2e] at hb; cases hb
        · exact hinf.trans ha
      · simp at hc
      · simp at hw
    · refine ⟨fun hr => ?_, fun hc => ?_, fun hw => ?_⟩
      · simp [hj] at hr
        exact hinf.trans (h1 hr)
      · simp [hj] at hc
        obtain ⟨hc1, hc2⟩ := h2 hc
        exact ⟨hinf.trans hc1, hc2⟩
      · simp [hj] at hw
        rcases h3 hw with ⟨ha, hb⟩ | ⟨ha, hb⟩
        · exact Or.inl ⟨hinf.trans ha, hb⟩
        · exact Or.inr ⟨hinf.trans ha, hb⟩
  | wpop m rest h1p h2p =>
    intro j
    obtain ⟨h1, h2, h3⟩ := hs j
    have hinf : inflight ⟨rest, s.event, s.epc, some m⟩ j = inflight s j := by
      unfold inflight
      rw [h2p, h1p, List.countP_cons]
      by_cases hm : m.1 = j
      · simp [hm]
      · simp [hm, fun hh : (m.1 == j) = true => hm (by simpa using hh)]
    refine ⟨fun hr => ?_, fun hc => ?_, fun hw => ?_⟩
    · exact hinf.trans (h1 hr)
    · obtain ⟨hc1, hc2⟩ := h2 hc
      exact ⟨hinf.trans hc1, hc2⟩
    · rcases h3 hw with ⟨ha, hb⟩ | ⟨ha, hb⟩
      · exact Or.inl ⟨hinf.trans ha, hb⟩
      · exact Or.inr ⟨hinf.trans ha, hb⟩
  | wdone m h =>
    intro j
    obtain ⟨h1, h2, h3⟩ := hs j
    by_cases hj : j = m.1
    · have hpre : inflight s j = s.queue.countP (fun x => x.1 == j) + 1 := by
        unfold inflight
        rw [h, hj]
        simp
      have hepc : s.epc j = .waiting := by
        cases hepc : s.epc j
        · have := h1 hepc; omega
        · have := (h2 hepc).1; omega
        · rfl
      rcases h3 hepc with ⟨ha, _⟩ | ⟨ha, _⟩
      · have hq0 : s.queue.countP (fun x => x.1 == j) = 0 := by omega
        have hinf0 : inflight ⟨s.queue, fun k => if k = m.1 then true else s.event k,
            s.epc, none⟩ j = 0 := by
          unfold inflight
          simpa using hq0
        refine ⟨fun hr => ?_, fun hc => ?_, fun _ => ?_⟩
        · rw [hepc] at hr; cases hr
        · rw [hepc] at hc; cases hc
        · exact Or.inr ⟨hinf0, by simp [hj]⟩
      · omega
    · have hmj : ¬ m.1 = j := fun hh => hj hh.symm
      have hinf : inflight ⟨s.queue, fun k => if k = m.1 then true else s.event k,
          s.epc, none⟩ j = inflight s j := by
        unfold inflight
        rw [h]
        simp [hmj]
      refine ⟨fun hr => ?_, fun hc => ?_, fun hw => ?_⟩
      · exact hinf.trans (h1 hr)
      · obtain ⟨hc1, hc2⟩ := h2 hc
        exact ⟨hinf.trans hc1, by simp [hj, hc2]⟩
      · rcases h3 hw with ⟨ha, hb⟩ | ⟨ha, hb⟩
        · exact Or.inl ⟨hinf.trans ha, by simp [hj, hb]⟩
        · exact Or.inr ⟨hinf.trans ha, by simp [hj, hb]⟩

lemma flushReachable_inv {R : Type} {s : FlushSys R} (h : FlushReachable R s) :
    FlushInv s := by
  induction h with
  | refl => exact flushInit_inv
  | tail _ hstep ih => exact flushStep_inv ih hstep

/-- Claim C2: in every reachable state of the flush protocol, an engine has at most one unacknowledged batch in flight, and none while in its crawl loop: `_flush_data` clears the event, enqueues, and blocks until the writer sets the event again, so a second flush cannot start before the first is acknowledged. -/
theorem engine_at_most_one_inflight {R : Type} (s : FlushSys R)
    (h : FlushReachable R s) (i : String) :
    inflight s i ≤ 1 ∧ (s.epc i = .run → inflight s i = 0) := by
  obtain ⟨h1, h2, h3⟩ := flushReachable_inv h i
  refine ⟨?_, h1⟩
  cases hepc : s.epc i
  · simp [h1 hepc]
  · simp [(h2 hepc).1]
  · rcases h3 hepc with ⟨ha, _⟩ | ⟨ha, _⟩ <;> simp [ha]

/-- Claim C2, witness: the theorem applied to the initial state, which is reachable by the empty step sequence. -/
theorem engine_at_most_one_inflight_witness :
    inflight (flushInit : FlushSys Nat) "stolnipocitace" ≤ 1 ∧
    ((flushInit : FlushSys Nat).epc "stolnipocitace" = .run →
      inflight (flushInit : FlushSys Nat) "stolnipocitace" = 0) :=
  engine_at_most_one_inflight flushInit Relation.ReflTransGen.refl "stolnipocitace"


/- character lemmas -/

lemma lowerChar_cases (c : Char) : lowerChar c = c ∨ isLowerAlpha (lowerChar c) = true := by
  unfold lowerChar
  split
  all_goals first
    | (left; rfl)
    | (right; decide)

lemma lowerChar_of_lower (c : Char) (h : isLowerAlpha c = true) : lowerChar c = c := by
  unfold lowerChar
  split <;> first
    | rfl
    | exact absurd h (by decide)

lemma lowerChar_idem (c : Char) : lowerChar (lowerChar c) = lowerChar c := by
  rcases lowerChar_cases c with h | h
  · rw [h]; exact h
  · exact lowerChar_of_lower _ h

lemma lowerStr_idem (l : List Char) : lowerStr (lowerStr l) = lowerStr l := by
  unfold lowerStr
  rw [List.map_map]
  exact List.map_congr_left fun c _ => lowerChar_idem c

lemma head?_dropWhile_slash (m : List Char) :
    (m.dropWhile (· == '/')).head? ≠ some '/' := by
  induction m with
  | nil => simp
  | cons a t ih =>
    by_cases ha : a = '/'
    · subst ha
      simpa [List.dropWhile_cons] using ih
    · have : (a == '/') = false := by simp [ha]
      simp [List.dropWhile_cons, this, ha]

lemma rstrip_no_trailing (l : List Char) : (rstripSlash l).getLast? ≠ some '/' := by
  unfold rstripSlash
  rw [List.getLast?_reverse]
  exact head?_dropWhile_slash _

/- C7 -/

/-- Claim C7, counterexample: `rstrip('/')` removes every trailing slash, not exactly one (a path ending in `//` loses both), and the query and fragment are dropped unconditionally: there is no per-call-site equality policy in the code. -/
theorem normalize_url_policy_cex :
    normalize_url (chars "http://a.com/p//") = .ok (chars "http://a.com/p") ∧
    chars "http://a.com/p" ≠ chars "http://a.com/p/" ∧
    normalize_url (chars "http://a.com/p?q=1#f") = .ok (chars "http://a.com/p") := by
  refine ⟨by rfl, by decide, by rfl⟩

/-- Claim C7, amended: for every URL whose parse succeeds, `normalize_url` rebuilds the URL from the lower-cased scheme, the lower-cased netloc and the path with all trailing slashes stripped, discarding params, query and fragment; lower-casing is idempotent on the kept components and the kept path never ends in a slash. -/
theorem normalize_url_components (u : List Char) (r : UrlParsed)
    (h : urlparseE u = .ok r) :
    normalize_url u = .ok (urlunparse
      ⟨lowerStr r.scheme, lowerStr r.netloc, rstripSlash r.path, [], [], []⟩) ∧
    lowerStr (lowerStr r.scheme) = lowerStr r.scheme ∧
    lowerStr (lowerStr r.netloc) = lowerStr r.netloc ∧
    (rstripSlash r.path).getLast? ≠ some '/' := by
  refine ⟨?_, lowerStr_idem _, lowerStr_idem _, rstrip_no_trailing _⟩
  unfold normalize_url
  rw [h]
  rfl

/-- Claim C7, witness: the amended theorem applied to a concrete mixed-case URL with a double trailing slash. -/
theorem normalize_url_components_witness :
    normalize_url (chars "HTTP://Ex.COM/A//") = .ok (urlunparse
      ⟨lowerStr (chars "http"), lowerStr (chars "Ex.COM"), rstripSlash (chars "/A//"),
       [], [], []⟩) ∧
    lowerStr (lowerStr (chars "http")) = lowerStr (chars "http") ∧
    lowerStr (lowerStr (chars "Ex.COM")) = lowerStr (chars "Ex.COM") ∧
    (rstripSlash (chars "/A//")).getLast? ≠ some '/' :=
  normalize_url_components (chars "HTTP://Ex.COM/A//")
    ⟨chars "http", chars "Ex.COM", chars "/A//", [], [], []⟩ (by rfl)

/- C8 -/

/-- Claim C8, counterexample: `normalize_url` is not total; on the input `http://[` the underlying `urlparse` raises `ValueError: Invalid IPv6 URL`. -/
theorem normalize_url_raises_cex :
    normalize_url (chars "http://[") = .error "Invalid IPv6 URL" := by rfl

lemma preclean_sublist (u : List Char) : List.Sublist (preclean u) u :=
  (List.filter_sublist _).trans (List.dropWhile_sublist _)

lemma splitScheme_snd_sublist (l : List Char) : List.Sublist (splitScheme l).2 l := by
  unfold splitScheme
  split
  · exact List.Sublist.refl l
  · rename_i c rest heq
    split
    · exact List.Sublist.refl l
    · split
      · have h1 : List.Sublist (l.dropWhile (· != ':')) l := List.dropWhile_sublist _
        rw [heq] at h1
        exact (List.sublist_cons_self _ _).trans h1
      · exact List.Sublist.refl l

lemma splitNetloc_fst_sublist (m : List Char) : List.Sublist (splitNetloc m).1 m := by
  unfold splitNetloc
  split
  · rename_i r
    exact ((List.takeWhile_sublist _).trans
      ((List.sublist_cons_self _ _).trans (List.sublist_cons_self _ _)))
  · exact List.nil_sublist _

/-- Claim C8, amended: `normalize_url` returns a value, never an error, on every all-ASCII input string containing no square bracket: for such inputs the netloc is ASCII, so CPython's `_checknetloc` returns at once and `_check_bracketed_host` is unreachable, and the unbalanced-bracket check — the remaining failure mode — cannot fire. -/
theorem normalize_url_total_ascii (u : List Char)
    (h1 : '[' ∉ u) (h2 : ']' ∉ u) (hascii : ∀ c ∈ u, c.toNat ≤ 127) :
    ∃ v, normalize_url u = .ok v := by
  have hnl : List.Sublist (splitNetloc (splitScheme (preclean u)).2).1 u :=
    (splitNetloc_fst_sublist _).trans
      ((splitScheme_snd_sublist _).trans (preclean_sublist u))
  have hb1 : ((splitNetloc (splitScheme (preclean u)).2).1.contains '[') = false := by
    by_contra hcon
    rw [Bool.not_eq_false] at hcon
    exact h1 (hnl.subset (List.mem_of_elem_eq_true hcon))
  have hb2 : ((splitNetloc (splitScheme (preclean u)).2).1.contains ']') = false := by
    by_contra hcon
    rw [Bool.not_eq_false] at hcon
    exact h2 (hnl.subset (List.mem_of_elem_eq_true hcon))
  have hba : ((splitNetloc (splitScheme (preclean u)).2).1.all isAsciiChar) = true := by
    rw [List.all_eq_true]
    intro x hx
    exact decide_eq_true (hascii x (hnl.subset hx))
  have hsplit : urlsplitE u = .ok
      ⟨(splitScheme (preclean u)).1, (splitNetloc (splitScheme (preclean u)).2).1,
       ((splitNetloc (splitScheme (preclean u)).2).2.takeWhile (· != '#')).takeWhile (· != '?'),
       (((splitNetloc (splitScheme (preclean u)).2).2.takeWhile (· != '#')).dropWhile (· != '?')).drop 1,
       ((splitNetloc (splitScheme (preclean u)).2).2.dropWhile (· != '#')).drop 1⟩ := by
    unfold urlsplitE
    simp only [hb1, hb2, hba, bne_self_eq_false]
    rfl
  have hparse : ∃ q, urlparseE u = .ok q := by
    unfold urlparseE
    rw [hsplit]
    dsimp only [bind, Except.bind]
    split
    · exact ⟨_, rfl⟩
    · exact ⟨_, rfl⟩
  obtain ⟨q, hq⟩ := hparse
  exact ⟨_, by unfold normalize_url; rw [hq]; rfl⟩

/-- Claim C8, witness: the amended theorem applied to a concrete bracket-free ASCII URL. -/
theorem normalize_url_total_ascii_witness :
    ∃ v, normalize_url (chars "http://example.com/a") = .ok v :=
  normalize_url_total_ascii (chars "http://example.com/a")
    (by decide) (by decide) (by decide)


/- generic takeWhile/dropWhile lemmas -/

lemma tw_all {p : Char → Bool} : ∀ l : List Char, (∀ c ∈ l, p c = true) →
    l.takeWhile p = l := by
  intro l h
  induction l with
  | nil => rfl
  | cons a t ih =>
    rw [List.takeWhile_cons, h a (by simp)]
    simp only [ite_true]
    rw [ih fun c hc => h c (by simp [hc])]

lemma dw_all {p : Char → Bool} : ∀ l : List Char, (∀ c ∈ l, p c = true) →
    l.dropWhile p = [] := by
  intro l h
  induction l with
  | nil => rfl
  | cons a t ih =>
    rw [List.dropWhile_cons, h a (by simp)]
    simp only [ite_true]
    exact ih fun c hc => h c (by simp [hc])

lemma tw_append {p : Char → Bool} : ∀ (l m : List Char), (∀ c ∈ l, p c = true) →
    (l ++ m).takeWhile p = l ++ m.takeWhile p := by
  intro l m h
  induction l with
  | nil => rfl
  | cons a t ih =>
    rw [List.cons_append, List.takeWhile_cons, h a (by simp)]
    simp only [ite_true]
    rw [ih fun c hc => h c (by simp [hc]), List.cons_append]

lemma dw_append {p : Char → Bool} : ∀ (l m : List Char), (∀ c ∈ l, p c = true) →
    (l ++ m).dropWhile p = m.dropWhile p := by
  intro l m h
  induction l with
  | nil => rfl
  | cons a t ih =>
    rw [List.cons_append, List.dropWhile_cons, h a (by simp)]
    simp only [ite_true]
    exact ih fun c hc => h c (by simp [hc])

lemma tw_head_false {p : Char → Bool} (c : Char) (t : List Char) (h : p c = false) :
    (c :: t).takeWhile p = [] := by
  rw [List.takeWhile_cons, h]
  simp

lemma dw_head_false {p : Char → Bool} (c : Char) (t : List Char) (h : p c = false) :
    (c :: t).dropWhile p = c :: t := by
  rw [List.dropWhile_cons, h]
  simp

lemma dw_head {p : Char → Bool} : ∀ (l : List Char) (x : Char) (t : List Char),
    l.dropWhile p = x :: t → p x = false := by
  intro l
  induction l with
  | nil => intro x t h; cases h
  | cons a m ih =>
    intro x t h
    rw [List.dropWhile_cons] at h
    by_cases hp : p a = true
    · rw [hp] at h
      simp only [ite_true] at h
      exact ih x t h
    · rw [Bool.not_eq_true] at hp
      rw [hp] at h
      simp only [Bool.false_eq_true, ite_false] at h
      cases h
      exact hp

lemma dw_idem {p : Char → Bool} (l : List Char) :
    (l.dropWhile p).dropWhile p = l.dropWhile p := by
  cases hd : l.dropWhile p with
  | nil => rfl
  | cons x t => exact dw_head_false x t (dw_head l x t hd)

lemma mem_tw {p : Char → Bool} : ∀ (l : List Char) (x : Char),
    x ∈ l.takeWhile p → p x = true ∧ x ∈ l := by
  intro l
  induction l with
  | nil => intro x h; cases h
  | cons a t ih =>
    intro x h
    rw [List.takeWhile_cons] at h
    by_cases hp : p a = true
    · rw [hp] at h
      simp only [ite_true] at h
      rcases List.mem_cons.mp h with rfl | h2
      · exact ⟨hp, by simp⟩
      · obtain ⟨h3, h4⟩ := ih x h2
        exact ⟨h3, by simp [h4]⟩
    · rw [Bool.not_eq_true] at hp
      rw [hp] at h
      simp at h

lemma contains_eq_false_of_not_mem {a : Char} {l : List Char} (h : a ∉ l) :
    l.contains a = false := by
  by_contra hcon
  rw [Bool.not_eq_false] at hcon
  exact h (List.mem_of_elem_eq_true hcon)

lemma bne_true_of_not_mem {a : Char} {l : List Char} (h : a ∉ l) :
    ∀ c ∈ l, (c != a) = true := by
  intro c hc
  rw [bne_iff_ne]
  rintro rfl
  exact h hc

/- character-class lemmas -/

lemma bne_of_toNat {c d : Char} (h : c.toNat ≠ d.toNat) : (c != d) = true := by
  rw [bne_iff_ne]
  rintro rfl
  exact h rfl

lemma isSchemeChar_toNat (c : Char) (h : isSchemeChar c = true) :
    c.toNat = 43 ∨ c.toNat = 45 ∨ c.toNat = 46 ∨
    (48 ≤ c.toNat ∧ c.toNat ≤ 57) ∨ (65 ≤ c.toNat ∧ c.toNat ≤ 90) ∨
    (97 ≤ c.toNat ∧ c.toNat ≤ 122) := by
  unfold isSchemeChar isAsciiAlpha isAsciiDigit isLowerAlpha isUpperAlpha at h
  simp only [Bool.or_eq_true, Bool.and_eq_true, decide_eq_true_eq, beq_iff_eq] at h
  rcases h with ((((hl | hu) | hd) | hp) | hm) | hdot
  · right; right; right; right; right; exact hl
  · right; right; right; right; left; exact hu
  · right; right; right; left; exact hd
  · subst hp; left; decide
  · subst hm; right; left; decide
  · subst hdot; right; right; left; decide

lemma schemeChar_props (c : Char) (h : isSchemeChar c = true) :
    (c != ':') = true ∧ (c != '#') = true ∧ (c != '?') = true ∧ (c != ';') = true ∧
    keepChar c = true ∧ 32 < c.toNat ∧ isNetlocDelim c = false := by
  have ht := isSchemeChar_toNat c h
  have h32 : 32 < c.toNat := by omega
  refine ⟨bne_of_toNat ?_, bne_of_toNat ?_, bne_of_toNat ?_, bne_of_toNat ?_, ?_, h32, ?_⟩
  · rw [show (':').toNat = 58 from rfl]; omega
  · rw [show ('#').toNat = 35 from rfl]; omega
  · rw [show ('?').toNat = 63 from rfl]; omega
  · rw [show (';').toNat = 59 from rfl]; omega
  · simp only [keepChar, Bool.not_eq_eq_eq_not, Bool.not_true, Bool.or_eq_false_iff,
      beq_eq_false_iff_ne]
    refine ⟨⟨?_, ?_⟩, ?_⟩ <;> rintro rfl <;> exact absurd ht (by decide)
  · simp only [isNetlocDelim, Bool.or_eq_false_iff, beq_eq_false_iff_ne]
    refine ⟨⟨?_, ?_⟩, ?_⟩ <;> rintro rfl <;> exact absurd ht (by decide)

lemma keepChar_of_gt32 (c : Char) (h : 32 < c.toNat) : keepChar c = true := by
  simp only [keepChar, Bool.not_eq_eq_eq_not, Bool.not_true, Bool.or_eq_false_iff,
    beq_eq_false_iff_ne]
  refine ⟨⟨?_, ?_⟩, ?_⟩ <;> rintro rfl <;> exact absurd h (by decide)

lemma lowerChar_toNat_cases (c : Char) :
    lowerChar c = c ∨ (97 ≤ (lowerChar c).toNat ∧ (lowerChar c).toNat ≤ 122) := by
  rcases lowerChar_cases c with h | h
  · exact Or.inl h
  · right
    unfold isLowerAlpha at h
    simpa using h

lemma lowerChar_alpha (c : Char) (h : isAsciiAlpha c = true) :
    isAsciiAlpha (lowerChar c) = true := by
  rcases lowerChar_toNat_cases c with hc | hc
  · rw [hc]; exact h
  · unfold isAsciiAlpha isLowerAlpha isUpperAlpha
    simp only [Bool.or_eq_true, Bool.and_eq_true, decide_eq_true_eq]
    left; omega

lemma lowerChar_scheme (c : Char) (h : isSchemeChar c = true) :
    isSchemeChar (lowerChar c) = true := by
  rcases lowerChar_toNat_cases c with hc | hc
  · rw [hc]; exact h
  · unfold isSchemeChar isAsciiAlpha isLowerAlpha
    simp only [Bool.or_eq_true, Bool.and_eq_true, decide_eq_true_eq]
    left; left; left; omega

lemma lowerChar_keep (c : Char) (h : keepChar c = true) :
    keepChar (lowerChar c) = true := by
  rcases lowerChar_toNat_cases c with hc | hc
  · rw [hc]; exact h
  · exact keepChar_of_gt32 _ (by omega)

lemma lowerChar_not_delim (c : Char) (h : isNetlocDelim c = false) :
    isNetlocDelim (lowerChar c) = false := by
  rcases lowerChar_toNat_cases c with hc | hc
  · rw [hc]; exact h
  · simp only [isNetlocDelim, Bool.or_eq_false_iff, beq_eq_false_iff_ne]
    refine ⟨⟨?_, ?_⟩, ?_⟩ <;> intro he <;> rw [he] at hc <;> exact absurd hc (by decide)

lemma lowerChar_gt32 (c : Char) (h : 32 < c.toNat) : 32 < (lowerChar c).toNat := by
  rcases lowerChar_toNat_cases c with hc | hc
  · rw [hc]; exact h
  · omega

lemma lowerChar_ascii (c : Char) (h : isAsciiChar c = true) :
    isAsciiChar (lowerChar c) = true := by
  rcases lowerChar_toNat_cases c with hc | hc
  · rw [hc]; exact h
  · unfold isAsciiChar
    rw [decide_eq_true_eq]
    omega

lemma lowerChar_eq_special {d : Char} (hd : d.toNat < 97) {c : Char}
    (h : lowerChar c = d) : c = d := by
  rcases lowerChar_toNat_cases c with hc | hc
  · rw [hc] at h; exact h
  · rw [h] at hc; omega

lemma lowerStr_mem_special (d : Char) (hd : d.toNat < 97) (hfix : lowerChar d = d)
    (n : List Char) : d ∈ lowerStr n ↔ d ∈ n := by
  constructor
  · intro h
    rcases List.mem_map.mp h with ⟨c, hc, he⟩
    rwa [lowerChar_eq_special hd he] at hc
  · intro h
    exact List.mem_map.mpr ⟨d, h, hfix⟩


/- splitScheme characterization -/

lemma splitScheme_shape (l : List Char) :
    splitScheme l = ([], l) ∨
    ∃ c cs rest, splitScheme l = (lowerStr (c :: cs), rest) ∧
      l = (c :: cs) ++ ':' :: rest ∧ isAsciiAlpha c = true ∧
      (c :: cs).all isSchemeChar = true := by
  unfold splitScheme
  split
  · exact Or.inl rfl
  · rename_i x rest heq
    split
    · exact Or.inl rfl
    · rename_i c cs heq2
      split
      · rename_i hcond
        rw [Bool.and_eq_true] at hcond
        right
        refine ⟨c, cs, rest, rfl, ?_, hcond.1, hcond.2⟩
        have hx : (x != ':') = false := dw_head l x rest heq
        have hx2 : x = ':' := by simpa using hx
        have hsplit := List.takeWhile_append_dropWhile (p := (· != ':')) (l := l)
        rw [heq2, heq, hx2] at hsplit
        exact hsplit.symm
      · exact Or.inl rfl

lemma splitScheme_build (c : Char) (cs t : List Char)
    (halpha : isAsciiAlpha c = true) (hall : (c :: cs).all isSchemeChar = true) :
    splitScheme ((c :: cs) ++ ':' :: t) = (lowerStr (c :: cs), t) := by
  have hbne : ∀ x ∈ c :: cs, ((x != ':') : Bool) = true := by
    intro x hx
    rw [List.all_eq_true] at hall
    exact (schemeChar_props x (hall x hx)).1
  have hdw : ((c :: cs) ++ ':' :: t).dropWhile (· != ':') = ':' :: t := by
    rw [dw_append _ _ hbne]
    exact dw_head_false _ _ (by simp)
  have htw : ((c :: cs) ++ ':' :: t).takeWhile (· != ':') = c :: cs := by
    rw [tw_append _ _ hbne, tw_head_false ':' t (by simp)]
    simp
  unfold splitScheme
  rw [hdw, htw]
  simp [halpha, hall]

lemma splitScheme_no_colon (l : List Char) (h : ':' ∉ l) : splitScheme l = ([], l) := by
  unfold splitScheme
  rw [dw_all l (bne_true_of_not_mem h)]

lemma splitScheme_head_not_alpha (c : Char) (t : List Char)
    (h : isAsciiAlpha c = false) : splitScheme (c :: t) = ([], c :: t) := by
  by_cases hc : (c != ':') = true
  · have htw : (c :: t).takeWhile (· != ':') = c :: t.takeWhile (· != ':') := by
      rw [List.takeWhile_cons, hc]
      simp
    unfold splitScheme
    split
    · rfl
    · rw [htw]
      simp [h]
  · rw [Bool.not_eq_true] at hc
    have htw : (c :: t).takeWhile (· != ':') = [] := tw_head_false c t hc
    unfold splitScheme
    split
    · rfl
    · rw [htw]

lemma splitScheme_prefix_fail (l q : List Char) (hq : ∃ t, q ++ t = l)
    (hf : splitScheme l = ([], l)) : splitScheme q = ([], q) := by
  rcases splitScheme_shape q with h | ⟨c, cs, rest, hres, hdec, halpha, hall⟩
  · exact h
  · exfalso
    obtain ⟨t, rfl⟩ := hq
    have hform : q ++ t = (c :: cs) ++ ':' :: (rest ++ t) := by
      rw [hdec]
      simp
    rw [hform, splitScheme_build c cs (rest ++ t) halpha hall] at hf
    have hfst : lowerStr (c :: cs) = [] := congrArg Prod.fst hf
    simp [lowerStr] at hfst

/- splitNetloc characterization -/

lemma splitNetloc_build (n q : List Char) (hn : ∀ c ∈ n, isNetlocDelim c = false)
    (hq : q = [] ∨ q.head? = some '/') :
    splitNetloc ('/' :: '/' :: (n ++ q)) = (n, q) := by
  have hn2 : ∀ c ∈ n, (!isNetlocDelim c) = true := fun c hc => by rw [hn c hc]; rfl
  have htw : (n ++ q).takeWhile (fun c => !isNetlocDelim c) = n := by
    rw [tw_append _ _ hn2]
    rcases hq with rfl | hq
    · simp
    · cases q with
      | nil => simp
      | cons a t =>
        simp only [List.head?_cons, Option.some_inj] at hq
        subst hq
        rw [tw_head_false _ _ (by decide)]
        simp
  have hdw : (n ++ q).dropWhile (fun c => !isNetlocDelim c) = q := by
    rw [dw_append _ _ hn2]
    rcases hq with rfl | hq
    · rfl
    · cases q with
      | nil => rfl
      | cons a t =>
        simp only [List.head?_cons, Option.some_inj] at hq
        subst hq
        exact dw_head_false _ _ (by decide)
  unfold splitNetloc
  split
  · rename_i r heq
    have hr : n ++ q = r := by injection heq with h1 h2; injection h2
    subst hr
    rw [htw, hdw]
  · rename_i hno
    exact absurd rfl (hno (n ++ q))

lemma splitNetloc_no (m : List Char) (h : m.take 2 ≠ ['/', '/']) :
    splitNetloc m = ([], m) := by
  unfold splitNetloc
  split
  · rename_i r
    exact absurd rfl h
  · rfl

/- preclean and rstrip lemmas -/

lemma preclean_eq_self (l : List Char)
    (hhead : l = [] ∨ ∃ c t, l = c :: t ∧ 32 < c.toNat)
    (hkeep : ∀ c ∈ l, keepChar c = true) : preclean l = l := by
  unfold preclean
  have hdw : l.dropWhile (fun c => c.toNat ≤ 32) = l := by
    rcases hhead with rfl | ⟨c, t, rfl, hc⟩
    · rfl
    · refine dw_head_false _ _ ?_
      rw [decide_eq_false_iff_not]
      omega
  rw [hdw, List.filter_eq_self.mpr hkeep]

lemma rstrip_eq_self (l : List Char) (h : l.getLast? ≠ some '/') :
    rstripSlash l = l := by
  unfold rstripSlash
  have hdw : l.reverse.dropWhile (· == '/') = l.reverse := by
    cases hr : l.reverse with
    | nil => rfl
    | cons a t =>
      have hh : l.getLast? = some a := by
        rw [← List.head?_reverse, hr]
        rfl
      have ha : a ≠ '/' := by
        rintro rfl
        exact h hh
      exact dw_head_false _ _ (by simp [ha])
  rw [hdw, List.reverse_reverse]

lemma rstrip_prefix (l : List Char) : ∃ t, rstripSlash l ++ t = l := by
  refine ⟨(l.reverse.takeWhile (· == '/')).reverse, ?_⟩
  unfold rstripSlash
  calc (l.reverse.dropWhile (· == '/')).reverse ++ (l.reverse.takeWhile (· == '/')).reverse
      = (l.reverse.takeWhile (· == '/') ++ l.reverse.dropWhile (· == '/')).reverse := by
        rw [List.reverse_append]
    _ = l.reverse.reverse := by rw [List.takeWhile_append_dropWhile]
    _ = l := List.reverse_reverse l

lemma rstrip_cons_slash (p : List Char) (hne : p ≠ []) (h : p.getLast? ≠ some '/') :
    rstripSlash ('/' :: p) = '/' :: p := by
  apply rstrip_eq_self
  cases p with
  | nil => exact absurd rfl hne
  | cons a t =>
    rw [List.getLast?_cons_cons]
    exact h


/- evaluation lemmas for the parser pipeline -/

lemma urlsplitE_eval (w sch rest netl rest2 : List Char)
    (hpre : preclean w = w)
    (hsch : splitScheme w = (sch, rest))
    (hnet : splitNetloc rest = (netl, rest2))
    (hbr1 : netl.contains '[' = false) (hbr2 : netl.contains ']' = false)
    (hba : netl.all isAsciiChar = true)
    (hhash : '#' ∉ rest2) (hqm : '?' ∉ rest2) :
    urlsplitE w = .ok ⟨sch, netl, rest2, [], []⟩ := by
  unfold urlsplitE
  simp only [hpre, hsch, hnet, hbr1, hbr2, hba, bne_self_eq_false, Bool.not_true,
    Bool.false_eq_true, if_false,
    tw_all rest2 (bne_true_of_not_mem hhash), dw_all rest2 (bne_true_of_not_mem hhash),
    tw_all rest2 (bne_true_of_not_mem hqm), dw_all rest2 (bne_true_of_not_mem hqm),
    List.drop_nil]

lemma urlparseE_eval (w sch netl path2 : List Char)
    (h : urlsplitE w = .ok ⟨sch, netl, path2, [], []⟩) (hsemi : ';' ∉ path2) :
    urlparseE w = .ok ⟨sch, netl, path2, [], [], []⟩ := by
  unfold urlparseE
  rw [h]
  dsimp only [bind, Except.bind]
  rw [contains_eq_false_of_not_mem hsemi, Bool.and_false]
  rfl

lemma normalize_eval (w sch netl path2 : List Char)
    (h : urlparseE w = .ok ⟨sch, netl, path2, [], [], []⟩) :
    normalize_url w =
      .ok (urlunsplit (lowerStr sch) (lowerStr netl) (rstripSlash path2) [] []) := by
  unfold normalize_url
  rw [h]
  rfl

lemma urlunsplit_eval (s n p : List Char) :
    urlunsplit s n p [] [] =
      (if s ≠ [] then
        s ++ ':' :: (if n ≠ [] ∨ (s ≠ [] ∧ usesNetloc.contains s ∧ p.take 2 ≠ ['/', '/']) then
          '/' :: '/' :: (n ++ (if p ≠ [] ∧ p.head? ≠ some '/' then '/' :: p else p))
        else p)
      else
        (if n ≠ [] ∨ (s ≠ [] ∧ usesNetloc.contains s ∧ p.take 2 ≠ ['/', '/']) then
          '/' :: '/' :: (n ++ (if p ≠ [] ∧ p.head? ≠ some '/' then '/' :: p else p))
        else p)) := by
  unfold urlunsplit
  split
  · rfl
  · rfl


/- the roundtrip lemma: normalize is a fixed point on its own output shape -/

lemma unsplit_roundtrip (s n p : List Char)
    (hs : s = [] ∨ ∃ c cs, s = c :: cs ∧ isAsciiAlpha c = true ∧
      (c :: cs).all isSchemeChar = true)
    (hslow : lowerStr s = s)
    (hn : ∀ c ∈ n, isNetlocDelim c = false)
    (hnlow : lowerStr n = n)
    (hnb1 : n.contains '[' = false) (hnb2 : n.contains ']' = false)
    (hna : n.all isAsciiChar = true)
    (hnws : ∀ c ∈ n, keepChar c = true)
    (hp1 : '#' ∉ p) (hp2 : '?' ∉ p) (hp3 : ';' ∉ p)
    (hpws : ∀ c ∈ p, keepChar c = true)
    (hplast : p.getLast? ≠ some '/')
    (hH2 : ¬(n = [] ∧ p.take 2 = ['/', '/']))
    (hlead : s = [] → n = [] → (p = [] ∨ ∃ c t, p = c :: t ∧ 32 < c.toNat))
    (hfail : s = [] → n = [] → splitScheme p = ([], p)) :
    normalize_url (urlunsplit s n p [] []) = .ok (urlunsplit s n p [] []) := by
  have hskeep : ∀ c ∈ s, keepChar c = true := by
    rcases hs with rfl | ⟨c, cs, rfl, _, hall⟩
    · intro x hx; cases hx
    · intro x hx
      rw [List.all_eq_true] at hall
      exact (schemeChar_props x (hall x hx)).2.2.2.2.1
  have hpstrip : rstripSlash p = p := rstrip_eq_self p hplast
  by_cases hA : n ≠ [] ∨ (s ≠ [] ∧ usesNetloc.contains s ∧ p.take 2 ≠ ['/', '/'])
  · -- netloc branch of urlunsplit
    set u2 := if p ≠ [] ∧ p.head? ≠ some '/' then '/' :: p else p with hu2def
    have hu2head : u2 = [] ∨ u2.head? = some '/' := by
      rw [hu2def]
      split
      · right; rfl
      · rename_i hcond
        by_cases hpe : p = []
        · exact Or.inl hpe
        · right
          rcases not_and_or.mp hcond with h | h
          · exact absurd hpe h
          · rwa [not_not] at h
    have hu2mem : ∀ c ∈ u2, c = '/' ∨ c ∈ p := by
      rw [hu2def]
      split
      · intro c hc
        rcases List.mem_cons.mp hc with rfl | hc2
        · exact Or.inl rfl
        · exact Or.inr hc2
      · intro c hc
        exact Or.inr hc
    have hu2hash : '#' ∉ u2 := by
      intro h
      rcases hu2mem _ h with h2 | h2
      · cases h2
      · exact hp1 h2
    have hu2qm : '?' ∉ u2 := by
      intro h
      rcases hu2mem _ h with h2 | h2
      · cases h2
      · exact hp2 h2
    have hu2semi : ';' ∉ u2 := by
      intro h
      rcases hu2mem _ h with h2 | h2
      · cases h2
      · exact hp3 h2
    have hu2keep : ∀ c ∈ u2, keepChar c = true := by
      intro c hc
      rcases hu2mem _ hc with rfl | h2
      · decide
      · exact hpws c h2
    have hu2strip : rstripSlash u2 = u2 := by
      rw [hu2def]
      split
      · rename_i hcond
        exact rstrip_cons_slash p hcond.1 hplast
      · exact hpstrip
    have hbodykeep : ∀ c ∈ '/' :: '/' :: (n ++ u2), keepChar c = true := by
      intro c hc
      rcases List.mem_cons.mp hc with rfl | hc
      · decide
      · rcases List.mem_cons.mp hc with rfl | hc
        · decide
        · rcases List.mem_append.mp hc with hc | hc
          · exact hnws c hc
          · exact hu2keep c hc
    have hnetsplit : splitNetloc ('/' :: '/' :: (n ++ u2)) = (n, u2) :=
      splitNetloc_build n u2 hn hu2head
    have hveq : urlunsplit s n p [] [] =
        (if s ≠ [] then s ++ ':' :: ('/' :: '/' :: (n ++ u2))
         else '/' :: '/' :: (n ++ u2)) := by
      rw [urlunsplit_eval, ← hu2def]
      split <;> rfl
    have hu2take : n = [] → (s ≠ [] ∧ usesNetloc.contains s ∧ u2.take 2 ≠ ['/', '/']) := by
      intro hn0
      rcases hA with h | ⟨h1, h2, h3⟩
      · exact absurd hn0 h
      · refine ⟨h1, h2, ?_⟩
        rw [hu2def]
        split
        · rename_i hcond
          obtain ⟨hpe, hph⟩ := hcond
          cases p with
          | nil => exact absurd rfl hpe
          | cons a t =>
            intro habs
            have h2t : ('/' :: a :: t).take 2 = ['/', a] := rfl
            rw [h2t] at habs
            simp only [List.cons.injEq, and_true, true_and] at habs
            exact hph (by rw [List.head?_cons, habs])
        · exact h3
    have hAfinal : n ≠ [] ∨ (s ≠ [] ∧ usesNetloc.contains s ∧ u2.take 2 ≠ ['/', '/']) := by
      by_cases hn0 : n = []
      · exact Or.inr (hu2take hn0)
      · exact Or.inl hn0
    have hinner : (if u2 ≠ [] ∧ u2.head? ≠ some '/' then '/' :: u2 else u2) = u2 := by
      rcases hu2head with h | h
      · rw [if_neg]
        rintro ⟨h1, _⟩
        exact h1 h
      · rw [if_neg]
        rintro ⟨_, h2⟩
        exact h2 h
    have hfinal : urlunsplit s n u2 [] [] = urlunsplit s n p [] [] := by
      rw [urlunsplit_eval s n u2, hveq, if_pos hAfinal, hinner]
    rcases hs with hs0 | ⟨c, cs, hsform, halpha, hall⟩
    · -- no scheme
      subst hs0
      have hv2 : urlunsplit [] n p [] [] = '/' :: '/' :: (n ++ u2) := by
        rw [hveq]
        simp
      have hpre : preclean ('/' :: '/' :: (n ++ u2)) = '/' :: '/' :: (n ++ u2) :=
        preclean_eq_self _ (Or.inr ⟨'/', _, rfl, by decide⟩) hbodykeep
      have hsch : splitScheme ('/' :: '/' :: (n ++ u2)) = ([], '/' :: '/' :: (n ++ u2)) :=
        splitScheme_head_not_alpha '/' _ (by decide)
      have hsplitv := urlsplitE_eval ('/' :: '/' :: (n ++ u2)) [] ('/' :: '/' :: (n ++ u2))
        n u2 hpre hsch hnetsplit hnb1 hnb2 hna hu2hash hu2qm
      have hparsev := urlparseE_eval _ _ _ _ hsplitv hu2semi
      have hnorm := normalize_eval _ _ _ _ hparsev
      rw [hv2, hnorm, show lowerStr [] = [] from rfl, hnlow, hu2strip, hfinal, hv2]
    · -- scheme present
      have hsne : s ≠ [] := by rw [hsform]; simp
      have hv2 : urlunsplit s n p [] [] = s ++ ':' :: ('/' :: '/' :: (n ++ u2)) := by
        rw [hveq, if_pos hsne]
      have hvkeep : ∀ x ∈ s ++ ':' :: ('/' :: '/' :: (n ++ u2)), keepChar x = true := by
        intro x hx
        rcases List.mem_append.mp hx with hx | hx
        · exact hskeep x hx
        · rcases List.mem_cons.mp hx with rfl | hx
          · decide
          · exact hbodykeep x hx
      have hpre : preclean (s ++ ':' :: ('/' :: '/' :: (n ++ u2)))
          = s ++ ':' :: ('/' :: '/' :: (n ++ u2)) := by
        refine preclean_eq_self _ (Or.inr ?_) hvkeep
        rw [hsform]
        refine ⟨c, _, rfl, ?_⟩
        rw [List.all_eq_true] at hall
        exact (schemeChar_props c (hall c (by simp))).2.2.2.2.2.1
      have hsch : splitScheme (s ++ ':' :: ('/' :: '/' :: (n ++ u2)))
          = (s, '/' :: '/' :: (n ++ u2)) := by
        rw [hsform, splitScheme_build c cs _ halpha hall, ← hsform, hslow]
      have hsplitv := urlsplitE_eval (s ++ ':' :: ('/' :: '/' :: (n ++ u2))) s
        ('/' :: '/' :: (n ++ u2)) n u2 hpre hsch hnetsplit hnb1 hnb2 hna hu2hash hu2qm
      have hparsev := urlparseE_eval _ _ _ _ hsplitv hu2semi
      have hnorm := normalize_eval _ _ _ _ hparsev
      rw [hv2, hnorm, hslow, hnlow, hu2strip, hfinal, hv2]
  · -- plain-path branch of urlunsplit
    have hn0 : n = [] := by
      by_contra hcon
      exact hA (Or.inl hcon)
    have hB2 : p.take 2 ≠ ['/', '/'] := fun h => hH2 ⟨hn0, h⟩
    have hveq : urlunsplit s n p [] [] = (if s ≠ [] then s ++ ':' :: p else p) := by
      rw [urlunsplit_eval, if_neg hA]
    have hnet : splitNetloc p = ([], p) := splitNetloc_no p hB2
    rcases hs with hs0 | ⟨c, cs, hsform, halpha, hall⟩
    · subst hs0
      have hv2 : urlunsplit [] n p [] [] = p := by
        rw [hveq]
        simp
      have hpre : preclean p = p := by
        rcases hlead rfl hn0 with rfl | ⟨d, t, hdt, hgt⟩
        · rfl
        · exact preclean_eq_self _ (Or.inr ⟨d, t, hdt, hgt⟩) hpws
      have hsch : splitScheme p = ([], p) := hfail rfl hn0
      have hsplitv := urlsplitE_eval p [] p [] p hpre hsch hnet rfl rfl rfl hp1 hp2
      have hparsev := urlparseE_eval _ _ _ _ hsplitv hp3
      have hnorm := normalize_eval _ _ _ _ hparsev
      have hfinal : urlunsplit [] [] p [] [] = p := by
        have hc : ¬(([] : List Char) ≠ [] ∨
            (([] : List Char) ≠ [] ∧ usesNetloc.contains ([] : List Char) ∧
             p.take 2 ≠ ['/', '/'])) := by
          rintro (h | h)
          · exact h rfl
          · exact h.1 rfl
        rw [urlunsplit_eval, if_neg hc]
        simp
      rw [hv2, hnorm, show lowerStr [] = [] from rfl, hpstrip, hfinal]
    · have hsne : s ≠ [] := by rw [hsform]; simp
      have hv2 : urlunsplit s n p [] [] = s ++ ':' :: p := by
        rw [hveq, if_pos hsne]
      have hX : ¬(s ≠ [] ∧ usesNetloc.contains s ∧ p.take 2 ≠ ['/', '/']) :=
        fun hX2 => hA (Or.inr hX2)
      have hvkeep : ∀ x ∈ s ++ ':' :: p, keepChar x = true := by
        intro x hx
        rcases List.mem_append.mp hx with hx | hx
        · exact hskeep x hx
        · rcases List.mem_cons.mp hx with rfl | hx
          · decide
          · exact hpws x hx
      have hpre : preclean (s ++ ':' :: p) = s ++ ':' :: p := by
        refine preclean_eq_self _ (Or.inr ?_) hvkeep
        rw [hsform]
        refine ⟨c, _, rfl, ?_⟩
        rw [List.all_eq_true] at hall
        exact (schemeChar_props c (hall c (by simp))).2.2.2.2.2.1
      have hsch : splitScheme (s ++ ':' :: p) = (s, p) := by
        rw [hsform, splitScheme_build c cs _ halpha hall, ← hsform, hslow]
      have hsplitv := urlsplitE_eval (s ++ ':' :: p) s p [] p hpre hsch hnet rfl rfl rfl hp1 hp2
      have hparsev := urlparseE_eval _ _ _ _ hsplitv hp3
      have hnorm := normalize_eval _ _ _ _ hparsev
      have hfinal : urlunsplit s [] p [] [] = s ++ ':' :: p := by
        have hc : ¬(([] : List Char) ≠ [] ∨
            (s ≠ [] ∧ usesNetloc.contains s ∧ p.take 2 ≠ ['/', '/'])) := by
          rintro (h | hX2)
          · exact h rfl
          · exact hX hX2
        rw [urlunsplit_eval, if_neg hc, if_pos hsne]
      rw [hv2, hnorm, hslow, show lowerStr [] = [] from rfl, hpstrip, hfinal]


/- well-formedness of urlsplit output -/

lemma splitNetloc_snd_sublist (m : List Char) : List.Sublist (splitNetloc m).2 m := by
  unfold splitNetloc
  split
  · rename_i r
    exact (List.dropWhile_sublist _).trans
      ((List.sublist_cons_self _ _).trans (List.sublist_cons_self _ _))
  · exact List.Sublist.refl _

lemma tw_nil_dw {p : Char → Bool} (l : List Char) (h : l.takeWhile p = []) :
    l.dropWhile p = l := by
  cases l with
  | nil => rfl
  | cons a t =>
    rw [List.takeWhile_cons] at h
    by_cases hp : p a = true
    · rw [hp] at h
      simp at h
    · rw [Bool.not_eq_true] at hp
      exact dw_head_false a t hp

lemma urlsplitE_ok_spec (u : List Char) (q : UrlSplit) (h : urlsplitE u = .ok q) :
    q.scheme = (splitScheme (preclean u)).1 ∧
    q.netloc = (splitNetloc (splitScheme (preclean u)).2).1 ∧
    q.path = ((splitNetloc (splitScheme (preclean u)).2).2.takeWhile
      (· != '#')).takeWhile (· != '?') ∧
    q.netloc.contains '[' = false ∧ q.netloc.contains ']' = false ∧
    q.netloc.all isAsciiChar = true := by
  unfold urlsplitE at h
  dsimp only at h
  split at h
  · exact absurd h (by simp)
  · rename_i hbne
    split at h
    · exact absurd h (by simp)
    · rename_i hbl
      split at h
      · exact absurd h (by simp)
      · rename_i hban
        injection h with h2
        have hb1 : ((splitNetloc (splitScheme (preclean u)).2).1.contains '[') = false :=
          by simpa using hbl
        have heq : ((splitNetloc (splitScheme (preclean u)).2).1.contains '[')
            = ((splitNetloc (splitScheme (preclean u)).2).1.contains ']') := by
          simpa using hbne
        refine ⟨by rw [← h2], by rw [← h2], by rw [← h2], ?_, ?_, ?_⟩
        · rw [← h2]
          exact hb1
        · rw [← h2]
          rw [← heq]
          exact hb1
        · rw [← h2]
          simpa using hban

lemma preclean_mem_keep (u : List Char) : ∀ x ∈ preclean u, keepChar x = true := by
  intro x hx
  unfold preclean at hx
  exact List.of_mem_filter hx

lemma preclean_head_gt32 (u : List Char) (d : Char) (t : List Char)
    (h : preclean u = d :: t) : 32 < d.toNat := by
  unfold preclean at h
  cases hdw : u.dropWhile (fun c => c.toNat ≤ 32) with
  | nil =>
    rw [hdw] at h
    cases h
  | cons h0 t0 =>
    have h32 : 32 < h0.toNat := by
      have := dw_head u h0 t0 hdw
      rw [decide_eq_false_iff_not] at this
      omega
    rw [hdw, List.filter_cons, keepChar_of_gt32 h0 h32] at h
    simp only [ite_true] at h
    injection h with h1 _
    rw [← h1]
    exact h32

lemma urlsplit_path_mem (u : List Char) (q : UrlSplit) (h : urlsplitE u = .ok q) :
    ∀ x ∈ q.path, x ∈ preclean u := by
  obtain ⟨_, _, hpath, _⟩ := urlsplitE_ok_spec u q h
  intro x hx
  rw [hpath] at hx
  have hx2 := (mem_tw _ _ hx).2
  have hx3 := (mem_tw _ _ hx2).2
  exact ((splitNetloc_snd_sublist _).trans (splitScheme_snd_sublist _)).subset hx3

lemma urlsplit_netloc_mem (u : List Char) (q : UrlSplit) (h : urlsplitE u = .ok q) :
    ∀ x ∈ q.netloc, x ∈ preclean u := by
  obtain ⟨_, hnet, _, _⟩ := urlsplitE_ok_spec u q h
  intro x hx
  rw [hnet] at hx
  exact ((splitNetloc_fst_sublist _).trans (splitScheme_snd_sublist _)).subset hx

lemma urlparseE_ok_no_params (u : List Char) (r : UrlParsed) (h : urlparseE u = .ok r)
    (hsemi : ';' ∉ preclean u) :
    ∃ q : UrlSplit, urlsplitE u = .ok q ∧
      r = ⟨q.scheme, q.netloc, q.path, [], q.query, q.fragment⟩ := by
  unfold urlparseE at h
  cases hus : urlsplitE u with
  | error e =>
    rw [hus] at h
    exact absurd h (by simp [bind, Except.bind])
  | ok q =>
    rw [hus] at h
    dsimp only [bind, Except.bind] at h
    have hps : q.path.contains ';' = false :=
      contains_eq_false_of_not_mem fun hm => hsemi (urlsplit_path_mem u q hus ';' hm)
    rw [hps, Bool.and_false] at h
    simp only [Bool.false_eq_true, if_false] at h
    injection h with h2
    exact ⟨q, rfl, h2.symm⟩

lemma urlsplit_scheme_wf (u : List Char) (q : UrlSplit) (h : urlsplitE u = .ok q) :
    q.scheme = [] ∨ ∃ c cs, q.scheme = c :: cs ∧ isAsciiAlpha c = true ∧
      (c :: cs).all isSchemeChar = true ∧ lowerStr q.scheme = q.scheme := by
  obtain ⟨hsch, _, _, _⟩ := urlsplitE_ok_spec u q h
  rcases splitScheme_shape (preclean u) with h2 | ⟨c, cs, rest, hres, _, halpha, hall⟩
  · left
    rw [hsch, h2]
  · right
    rw [hsch, hres]
    refine ⟨lowerChar c, lowerStr cs, rfl, lowerChar_alpha c halpha, ?_, ?_⟩
    · rw [List.all_eq_true] at hall ⊢
      intro x hx
      have : x ∈ lowerStr (c :: cs) := hx
      rcases List.mem_map.mp this with ⟨y, hy, rfl⟩
      exact lowerChar_scheme y (hall y hy)
    · exact lowerStr_idem _
  
lemma urlsplit_netloc_wf (u : List Char) (q : UrlSplit) (h : urlsplitE u = .ok q) :
    ∀ c ∈ q.netloc, isNetlocDelim c = false := by
  obtain ⟨_, hnet, _, _⟩ := urlsplitE_ok_spec u q h
  intro c hc
  rw [hnet] at hc
  revert hc
  unfold splitNetloc
  split
  · intro hc
    have := (mem_tw _ _ hc).1
    rwa [Bool.not_eq_eq_eq_not, Bool.not_true] at this
  · intro hc
    cases hc

lemma urlsplit_path_no_hash (u : List Char) (q : UrlSplit) (h : urlsplitE u = .ok q) :
    '#' ∉ q.path ∧ '?' ∉ q.path := by
  obtain ⟨_, _, hpath, _⟩ := urlsplitE_ok_spec u q h
  constructor
  · intro hx
    rw [hpath] at hx
    have hx2 := (mem_tw _ _ hx).2
    have := (mem_tw _ _ hx2).1
    simp at this
  · intro hx
    rw [hpath] at hx
    have := (mem_tw _ _ hx).1
    simp at this

lemma contains_congr (a : Char) (l m : List Char) (h : a ∈ l ↔ a ∈ m) :
    l.contains a = m.contains a := by
  by_cases hm : a ∈ m
  · unfold List.contains
    rw [List.elem_eq_true_of_mem (h.mpr hm), List.elem_eq_true_of_mem hm]
  · rw [contains_eq_false_of_not_mem (fun hl => hm (h.mp hl)),
      contains_eq_false_of_not_mem hm]


/- C9: idempotence on the non-degenerate domain -/

lemma tw_cons_true {p : Char → Bool} (c : Char) (t : List Char) (h : p c = true) :
    (c :: t).takeWhile p = c :: t.takeWhile p := by
  rw [List.takeWhile_cons, h]
  simp

lemma take2_shape (l : List Char) (h : l.take 2 = ['/', '/']) :
    ∃ r, l = '/' :: '/' :: r := by
  cases l with
  | nil => simp at h
  | cons a t =>
    cases t with
    | nil => simp at h
    | cons b t2 =>
      refine ⟨t2, ?_⟩
      have h2 : a :: b :: ([] : List Char) = ['/', '/'] := h
      injection h2 with h3 h4
      injection h4 with h5 _
      rw [h3, h5]

lemma splitScheme_fst_nil (l : List Char) (h : (splitScheme l).1 = []) :
    splitScheme l = ([], l) := by
  rcases splitScheme_shape l with h2 | ⟨c, cs, rest, hres, _, _, _⟩
  · exact h2
  · rw [hres] at h
    simp [lowerStr] at h

lemma splitNetloc_cons2 (r : List Char) : splitNetloc ('/' :: '/' :: r) =
    (r.takeWhile (fun c => !isNetlocDelim c),
     r.dropWhile (fun c => !isNetlocDelim c)) := rfl

lemma mem_rstrip (l : List Char) (x : Char) (h : x ∈ rstripSlash l) : x ∈ l := by
  obtain ⟨t, ht⟩ := rstrip_prefix l
  rw [← ht]
  exact List.mem_append_left _ h

lemma shape_of_path_nil (pp : List Char) (h : pp = []) :
    (rstripSlash pp = [] ∨ ∃ c t, rstripSlash pp = c :: t ∧ 32 < c.toNat) ∧
    splitScheme (rstripSlash pp) = ([], rstripSlash pp) := by
  subst h
  exact ⟨Or.inl rfl, rfl⟩

lemma shape_of_path_slash (pp x : List Char) (h : pp = '/' :: x) :
    (rstripSlash pp = [] ∨ ∃ c t, rstripSlash pp = c :: t ∧ 32 < c.toNat) ∧
    splitScheme (rstripSlash pp) = ([], rstripSlash pp) := by
  obtain ⟨t4, hpre⟩ := rstrip_prefix pp
  rcases hcase : rstripSlash pp with _ | ⟨d, pt⟩
  · exact ⟨Or.inl rfl, rfl⟩
  · rw [hcase, List.cons_append, h] at hpre
    injection hpre with h1 _
    subst h1
    exact ⟨Or.inr ⟨'/', pt, rfl, by decide⟩, splitScheme_head_not_alpha _ _ (by decide)⟩

lemma empty_scheme_netloc_path (u : List Char) (q : UrlSplit)
    (h : urlsplitE u = .ok q) (hs0 : q.scheme = []) (hn0 : q.netloc = []) :
    (rstripSlash q.path = [] ∨
      ∃ c t, rstripSlash q.path = c :: t ∧ 32 < c.toNat) ∧
    splitScheme (rstripSlash q.path) = ([], rstripSlash q.path) := by
  obtain ⟨hsch, hnet, hpath, _⟩ := urlsplitE_ok_spec u q h
  have hscheme_eq : splitScheme (preclean u) = ([], preclean u) :=
    splitScheme_fst_nil _ (by rw [← hsch, hs0])
  have hsnd : (splitScheme (preclean u)).2 = preclean u := by rw [hscheme_eq]
  rw [hsnd] at hnet hpath
  by_cases hww : ∃ r, preclean u = '/' :: '/' :: r
  · obtain ⟨r0, hwr⟩ := hww
    have hfst : (splitNetloc (preclean u)).1 = [] := by rw [← hnet, hn0]
    have hsn := splitNetloc_cons2 r0
    rw [← hwr] at hsn
    rw [hsn] at hfst
    dsimp only at hfst
    have hdwr : r0.dropWhile (fun c => !isNetlocDelim c) = r0 := tw_nil_dw r0 hfst
    have hrest2 : (splitNetloc (preclean u)).2 = r0 := by
      rw [hsn]
      exact hdwr
    rw [hrest2] at hpath
    cases r0 with
    | nil =>
      simp only [List.takeWhile_nil] at hpath
      exact shape_of_path_nil q.path hpath
    | cons rh rt =>
      have hdelim : isNetlocDelim rh = true := by
        by_contra hcon
        rw [Bool.not_eq_true] at hcon
        rw [List.takeWhile_cons, hcon] at hfst
        simp at hfst
      unfold isNetlocDelim at hdelim
      rw [Bool.or_eq_true, Bool.or_eq_true] at hdelim
      rcases hdelim with (hsl | hqm) | hhash
      · rw [beq_iff_eq] at hsl
        subst hsl
        have e1 : List.takeWhile (· != '#') ('/' :: rt) =
            '/' :: List.takeWhile (· != '#') rt := tw_cons_true _ _ (by decide)
        have e2 : List.takeWhile (· != '?') ('/' :: List.takeWhile (· != '#') rt) =
            '/' :: List.takeWhile (· != '?') (List.takeWhile (· != '#') rt) :=
          tw_cons_true _ _ (by decide)
        rw [e1, e2] at hpath
        exact shape_of_path_slash q.path _ hpath
      · rw [beq_iff_eq] at hqm
        subst hqm
        have e1 : List.takeWhile (· != '#') ('?' :: rt) =
            '?' :: List.takeWhile (· != '#') rt := tw_cons_true _ _ (by decide)
        have e2 : List.takeWhile (· != '?') ('?' :: List.takeWhile (· != '#') rt) =
            [] := tw_head_false _ _ (by decide)
        rw [e1, e2] at hpath
        exact shape_of_path_nil q.path hpath
      · rw [beq_iff_eq] at hhash
        subst hhash
        have e1 : List.takeWhile (· != '#') ('#' :: rt) = [] :=
          tw_head_false _ _ (by decide)
        rw [e1, List.takeWhile_nil] at hpath
        exact shape_of_path_nil q.path hpath
  · have htk : (preclean u).take 2 ≠ ['/', '/'] := fun hc => hww (take2_shape _ hc)
    have hsn2 : splitNetloc (preclean u) = ([], preclean u) := splitNetloc_no _ htk
    have hrest2 : (splitNetloc (preclean u)).2 = preclean u := by rw [hsn2]
    have hpre1 : q.path ++
        (((splitNetloc (preclean u)).2.takeWhile (· != '#')).dropWhile (· != '?') ++
          (splitNetloc (preclean u)).2.dropWhile (· != '#')) =
        (splitNetloc (preclean u)).2 := by
      rw [hpath, ← List.append_assoc, List.takeWhile_append_dropWhile,
        List.takeWhile_append_dropWhile]
    obtain ⟨t4, hpre2⟩ := rstrip_prefix q.path
    rw [hrest2] at hpre1
    have hchain : rstripSlash q.path ++
        (t4 ++ ((preclean u).takeWhile (· != '#')).dropWhile (· != '?') ++
          (preclean u).dropWhile (· != '#')) = preclean u := by
      rw [← List.append_assoc, ← List.append_assoc, hpre2, List.append_assoc]
      exact hpre1
    refine ⟨?_, splitScheme_prefix_fail (preclean u) _ ⟨_, hchain⟩ hscheme_eq⟩
    rcases hcase : rstripSlash q.path with _ | ⟨d, pt⟩
    · exact Or.inl rfl
    · right
      rw [hcase, List.cons_append] at hchain
      exact ⟨d, pt, rfl, preclean_head_gt32 u d _ hchain.symm⟩


/- C9 main theorem -/

lemma lowerStr_nil (l : List Char) (h : lowerStr l = []) : l = [] := by
  cases l with
  | nil => rfl
  | cons a t => simp [lowerStr] at h

/-- Claim C9, amended: `normalize_url` is idempotent on every URL whose parse succeeds, that contains no `;`, and whose parse does not pair an empty netloc with a stripped path starting `//`: the first normalization's output is a fixed point. -/
theorem normalize_url_idempotent_amended (u v : List Char) (r : UrlParsed)
    (hr : urlparseE u = .ok r) (hsemi : ';' ∉ u)
    (hshape : ¬(r.netloc = [] ∧ (rstripSlash r.path).take 2 = ['/', '/']))
    (hv : normalize_url u = .ok v) :
    normalize_url v = .ok v := by
  have hsemi2 : ';' ∉ preclean u := fun hm => hsemi ((preclean_sublist u).subset hm)
  obtain ⟨q, hq, hrq⟩ := urlparseE_ok_no_params u r hr hsemi2
  have hrn : r.netloc = q.netloc := by rw [hrq]
  have hrp : r.path = q.path := by rw [hrq]
  have hv2 : normalize_url u = .ok (urlunsplit (lowerStr q.scheme)
      (lowerStr q.netloc) (rstripSlash q.path) [] []) := by
    unfold normalize_url
    rw [hr, hrq]
    rfl
  rw [hv] at hv2
  injection hv2 with hveq
  subst hveq
  refine unsplit_roundtrip (lowerStr q.scheme) (lowerStr q.netloc)
    (rstripSlash q.path) ?_ (lowerStr_idem _) ?_ (lowerStr_idem _) ?_ ?_ ?_ ?_ ?_ ?_ ?_ ?_
    (rstrip_no_trailing _) ?_ ?_ ?_
  · rcases urlsplit_scheme_wf u q hq with h0 | ⟨c, cs, hform, ha, hall, hlow⟩
    · exact Or.inl (by rw [h0]; rfl)
    · exact Or.inr ⟨c, cs, by rw [hlow, hform], ha, hall⟩
  · intro c hc
    obtain ⟨y, hy, rfl⟩ := List.mem_map.mp hc
    exact lowerChar_not_delim y (urlsplit_netloc_wf u q hq y hy)
  · rw [contains_congr '[' (lowerStr q.netloc) q.netloc
        (lowerStr_mem_special '[' (by decide) (by decide) _)]
    exact (urlsplitE_ok_spec u q hq).2.2.2.1
  · rw [contains_congr ']' (lowerStr q.netloc) q.netloc
        (lowerStr_mem_special ']' (by decide) (by decide) _)]
    exact (urlsplitE_ok_spec u q hq).2.2.2.2.1
  · rw [List.all_eq_true]
    intro x hx
    obtain ⟨y, hy, rfl⟩ := List.mem_map.mp hx
    have hya := (urlsplitE_ok_spec u q hq).2.2.2.2.2
    rw [List.all_eq_true] at hya
    exact lowerChar_ascii y (hya y hy)
  · intro c hc
    obtain ⟨y, hy, rfl⟩ := List.mem_map.mp hc
    exact lowerChar_keep y (preclean_mem_keep u y (urlsplit_netloc_mem u q hq y hy))
  · intro hm
    exact (urlsplit_path_no_hash u q hq).1 (mem_rstrip _ _ hm)
  · intro hm
    exact (urlsplit_path_no_hash u q hq).2 (mem_rstrip _ _ hm)
  · intro hm
    exact hsemi2 (urlsplit_path_mem u q hq ';' (mem_rstrip _ _ hm))
  · intro c hc
    exact preclean_mem_keep u c (urlsplit_path_mem u q hq c (mem_rstrip _ _ hc))
  · rintro ⟨hn0, hp0⟩
    exact hshape ⟨by rw [hrn]; exact lowerStr_nil _ hn0, by rw [hrp]; exact hp0⟩
  · intro hs0 hn0
    exact (empty_scheme_netloc_path u q hq (lowerStr_nil _ hs0) (lowerStr_nil _ hn0)).1
  · intro hs0 hn0
    exact (empty_scheme_netloc_path u q hq (lowerStr_nil _ hs0) (lowerStr_nil _ hn0)).2

/-- Claim C9, counterexample: normalization is not idempotent on all of its domain. `http://h/a;x/` normalizes to `http://h/a;x`, which normalizes further to `http://h/a` (the params split only fires once the trailing slash is gone), and `////A` normalizes to `//A`, which normalizes further to `//a` (the stripped path is re-parsed as a netloc). -/
theorem normalize_url_idempotent_cex :
    (normalize_url (chars "http://h/a;x/") = .ok (chars "http://h/a;x") ∧
     normalize_url (chars "http://h/a;x") = .ok (chars "http://h/a") ∧
     chars "http://h/a;x" ≠ chars "http://h/a") ∧
    (normalize_url (chars "////A") = .ok (chars "//A") ∧
     normalize_url (chars "//A") = .ok (chars "//a") ∧
     chars "//A" ≠ chars "//a") :=
  ⟨⟨by rfl, by rfl, by decide⟩, ⟨by rfl, by rfl, by decide⟩⟩

/-- Claim C9, witness: the amended theorem applied to a concrete URL with a double trailing slash. -/
theorem normalize_url_idempotent_amended_witness :
    normalize_url (chars "http://ex.com/a") = .ok (chars "http://ex.com/a") :=
  normalize_url_idempotent_amended (chars "http://ex.com/a//")
    (chars "http://ex.com/a")
    ⟨chars "http", chars "ex.com", chars "/a//", [], [], []⟩
    (by rfl) (by decide) (by decide) (by rfl)

/-- Claim C5, witness: the amended theorem applied to a concrete environment whose normalizer (ASCII lower-casing) is idempotent. -/
theorem crawl_visited_norm_pairwise_witness :
    ((crawlRun lowerNormEnv 3
        (crawlInit lowerNormEnv ["HTTP://A/", "http://b"])).visited).Pairwise
      (fun a b => lowerNormEnv.norm a ≠ lowerNormEnv.norm b) :=
  crawl_visited_norm_pairwise lowerNormEnv ["HTTP://A/", "http://b"] 3
    (fun u => congrArg String.mk (lowerStr_idem u.data))
